import Mathlib

/-!
# Verification of the embiggen-disk partition/LVM/filesystem resizer

A shallow embedding, over `List Char` strings and unbounded `Int`
(the Go code uses `int64`; all quantities involved are disk sector
counts far below `2^63`, so overflow is immaterial and not modelled),
of the core of the embiggen-disk tool:

* the partition-table data model (`sfdiskLine`, `partitionTable`) with
  its attribute lookup, mutation and serialisation (part.go),
* the `sfdisk -d` output parser (`getPartitionTable`),
* the disk-device derivation `diskDev`,
* the partition grow decision (`partitionResizer.Resize`),
* the LVM LV/PV resizers' command-result handling (lvm.go),
* the `/proc/mounts` resolver (`statFS` / `findDevRoot`, fs.go),
* the recursive resize engine (`Resize`, resize.go).

External command execution and file reads are modelled as oracle
inputs (their textual results are parameters of the embedded
functions); `log.Fatalf` / `panic` exits are modelled as `none` /
dedicated failure constructors.
-/

/-- Go `unicode.IsSpace` restricted to the ASCII range (the only
characters occurring in the text the tool parses): space, tab,
newline, vertical tab, form feed, carriage return. -/
def wsB (c : Char) : Bool :=
  c = ' ' || c = '\t' || c = '\n' || c = '\x0B' || c = '\x0C' || c = '\r'

/-- Left part of Go `strings.TrimSpace`: drop leading whitespace. -/
def trimL (l : List Char) : List Char := l.dropWhile wsB

/-- Right part of Go `strings.TrimSpace`: drop trailing whitespace. -/
def trimR (l : List Char) : List Char := (l.reverse.dropWhile wsB).reverse

/-- Go `strings.TrimSpace` on a `List Char` string. -/
def trimSpace (l : List Char) : List Char := trimL (trimR l)

/-- Go `strings.Split(s, sep)` for a one-character separator: the
slices between consecutive separators; `n` separators give `n+1`
pieces, and the empty string gives one empty piece. -/
def splitChar (sep : Char) : List Char → List (List Char)
  | [] => [[]]
  | c :: rest =>
    if c = sep then [] :: splitChar sep rest
    else
      match splitChar sep rest with
      | p :: ps => (c :: p) :: ps
      | [] => [[c]]

/-- Go `strings.SplitN(s, sep, 2)` for a one-character separator,
returning `none` when the separator does not occur (the callers treat
that case as a fatal parse error). -/
def splitFirst (sep : Char) : List Char → Option (List Char × List Char)
  | [] => none
  | c :: rest =>
    if c = sep then some ([], rest)
    else (splitFirst sep rest).map (fun p => (c :: p.1, p.2))

/-- Accumulator core of Go `strings.Fields`: `acc` is the reversed
current word. -/
def fieldsAux : List Char → List Char → List (List Char)
  | [], acc => if acc = [] then [] else [acc.reverse]
  | c :: rest, acc =>
    if wsB c then
      if acc = [] then fieldsAux rest [] else acc.reverse :: fieldsAux rest []
    else fieldsAux rest (c :: acc)

/-- Go `strings.Fields`: split around runs of whitespace, producing no
empty fields. -/
def fieldsGo (l : List Char) : List (List Char) := fieldsAux l []

/-- Go `strings.Contains(hay, pat)`. -/
def containsSub (hay pat : List Char) : Bool :=
  pat.isPrefixOf hay ||
    match hay with
    | [] => false
    | _ :: t => containsSub t pat

/-- Go `strings.TrimRight(s, "0123456789")`: remove trailing decimal
digits. -/
def trimRightDigits (l : List Char) : List Char :=
  (l.reverse.dropWhile (fun c => c.isDigit)).reverse

/-- Go `strings.TrimSuffix(s, suffix)` for a one-character suffix. -/
def trimSuffixChar (c : Char) (l : List Char) : List Char :=
  match l.reverse with
  | x :: rest => if x = c then rest.reverse else l
  | [] => l

/-- The character value of a decimal digit (Go `c - '0'`). -/
def digitVal (c : Char) : Nat := c.toNat - 48

/-- Decimal digit test (`'0' ≤ c ≤ '9'`). -/
def isDigitB (c : Char) : Bool := 48 ≤ c.toNat && c.toNat ≤ 57

/-- Go `strconv.ParseInt(s, 10, 64)` restricted to the digits part:
a non-empty all-digit string parses to its decimal value.  The int64
range check is not modelled (values are far below `2^63`). -/
def parseNatGo (l : List Char) : Option Nat :=
  if l ≠ [] ∧ l.all isDigitB then
    some (l.foldl (fun a c => a * 10 + digitVal c) 0)
  else none

/-- Go `strconv.ParseInt(s, 10, 64)`: optional sign then decimal
digits. -/
def parseIntGo : List Char → Option Int
  | [] => none
  | c :: rest =>
    if c = '-' then (parseNatGo rest).map (fun n => -(Int.ofNat n))
    else if c = '+' then (parseNatGo rest).map (fun n => Int.ofNat n)
    else (parseNatGo (c :: rest)).map (fun n => Int.ofNat n)

/-- Decimal digits of a natural, fuel-based accumulator form
(Go `fmt.Sprintf("%d", n)` core loop); structural in the fuel so that
it evaluates by kernel reduction. -/
def natReprAux : Nat → Nat → List Char → List Char
  | 0, _, acc => acc
  | fuel + 1, n, acc =>
    if n = 0 then acc
    else natReprAux fuel (n / 10) (Char.ofNat (48 + n % 10) :: acc)

/-- Decimal representation of a natural number. -/
def natRepr (n : Nat) : List Char :=
  if n = 0 then ['0'] else natReprAux (n + 1) n []

/-- Go `fmt.Sprintf("%d", i)` for an `int64`. -/
def intRepr (i : Int) : List Char :=
  if i < 0 then '-' :: natRepr i.natAbs else natRepr i.toNat

example : trimSpace (" \t ab c \n".toList) = "ab c".toList := by decide
example : splitChar ',' "a,,b".toList = ["a".toList, [], "b".toList] := by decide
example : splitChar ',' [] = [[]] := by decide
example : splitFirst ':' "/dev/sda1 : x".toList
    = some ("/dev/sda1 ".toList, " x".toList) := by decide
example : fieldsGo " a  bc ".toList = ["a".toList, "bc".toList] := by decide
example : containsSub "xmatches existing sizey".toList
    "matches existing size".toList = true := by decide
example : containsSub "nope".toList "matches".toList = false := by decide
example : parseIntGo "497664".toList = some 497664 := by decide
example : parseIntGo "-12".toList = some (-12) := by decide
example : parseIntGo "".toList = none := by decide
example : parseIntGo "1a".toList = none := by decide
example : intRepr 497664 = "497664".toList := by decide
example : trimRightDigits "/dev/sda3".toList = "/dev/sda".toList := by decide

/-! ## Partition-table data model (part.go) -/

/-- One partition row of an `sfdisk -d` dump (Go `sfdiskLine`):
device path, attribute strings (`key=value` or bare flags), and the
1-based partition number assigned by textual order while parsing. -/
structure sfdiskLine where
  dev : List Char
  attr : List (List Char)
  pno : Nat
deriving DecidableEq

/-- An in-memory partition table (Go `partitionTable`): preamble
metadata rows and partition rows. -/
structure partitionTable where
  meta : List (List Char)
  parts : List sfdiskLine
deriving DecidableEq

/-- Core of `sfdiskLine.Attr`: scan the attribute list; an attribute
equal to the key is returned as-is (bare flag), an attribute starting
with `key=` yields its trimmed value; otherwise the empty string. -/
def slAttrGo (key : List Char) : List (List Char) → List Char
  | [] => []
  | a :: rest =>
    if a = key then key
    else if (key ++ ['=']).isPrefixOf a then
      trimSpace (a.drop (key.length + 1))
    else slAttrGo key rest

/-- Go `sfdiskLine.Attr`. -/
def sfdiskLine.Attr (sl : sfdiskLine) (key : List Char) : List Char :=
  slAttrGo key sl.attr

/-- Go `sfdiskLine.AttrInt64`: parse the attribute value as a decimal
integer; `none` models the `log.Fatalf` exits (missing attribute or
non-integer value — `parseIntGo` rejects the empty string). -/
def sfdiskLine.AttrInt64 (sl : sfdiskLine) (key : List Char) : Option Int :=
  parseIntGo (sl.Attr key)

/-- Go `sfdiskLine.Type` (current version, part.go of the repository
head): the `type` attribute, falling back to the `Id` attribute
emitted by older sfdisk versions. -/
def sfdiskLine.TypeAttr (sl : sfdiskLine) : List Char :=
  let v := sl.Attr ("type").toList
  if v ≠ [] then v else sl.Attr ("Id").toList

/-- Go `sfdiskLine.Start`. -/
def sfdiskLine.Start (sl : sfdiskLine) : Option Int :=
  sl.AttrInt64 ("start").toList

/-- Go `sfdiskLine.Size`. -/
def sfdiskLine.Size (sl : sfdiskLine) : Option Int :=
  sl.AttrInt64 ("size").toList

/-- Core of `sfdiskLine.SetSize`: replace the first attribute starting
with `size=`; `none` models the `panic` when no such attribute
exists.  (In Go the attribute slice is shared with the table, so the
table sees the update; the embedding updates the row functionally and
the resize model below writes the updated row back into the table.) -/
def slSetSizeGo (n : Int) : List (List Char) → Option (List (List Char))
  | [] => none
  | a :: rest =>
    if ("size=").toList.isPrefixOf a then
      some ((("size=").toList ++ intRepr n) :: rest)
    else (slSetSizeGo n rest).map (fun r => a :: r)

/-- Go `sfdiskLine.SetSize`. -/
def sfdiskLine.SetSize (sl : sfdiskLine) (n : Int) : Option sfdiskLine :=
  (slSetSizeGo n sl.attr).map (fun attrs => { sl with attr := attrs })

/-- Go `strings.Join(parts, sep)`. -/
def joinSep (sep : List Char) : List (List Char) → List Char
  | [] => []
  | [x] => x
  | x :: y :: rest => x ++ sep ++ joinSep sep (y :: rest)

/-- Go `sfdiskLine.String`: `"<dev> : <attr1>, <attr2>, …"`. -/
def sfdiskLine.render (sl : sfdiskLine) : List Char :=
  sl.dev ++ (" : ").toList ++ joinSep (", ").toList sl.attr

/-- Go `partitionTable.Meta`: value of the first metadata row starting
with `key:`, trimmed. -/
def metaLookup (key : List Char) : List (List Char) → List Char
  | [] => []
  | row :: rest =>
    if (key ++ [':']).isPrefixOf row then trimSpace (row.drop (key.length + 1))
    else metaLookup key rest

/-- Go `partitionTable.Meta`. -/
def partitionTable.Meta (pt : partitionTable) (key : List Char) : List Char :=
  metaLookup key pt.meta

/-- Go `partitionTable.RemoveMeta`: drop every metadata row starting
with `key: `. -/
def partitionTable.RemoveMeta (pt : partitionTable) (key : List Char) :
    partitionTable :=
  { pt with meta := (pt.meta.filter
      (fun row => !((key ++ [':', ' ']).isPrefixOf row))) }

/-- Go `partitionTable.Write`: metadata rows, a blank line, then the
partition rows, each line terminated by a newline. -/
def partitionTable.Write (pt : partitionTable) : List Char :=
  (pt.meta.map (fun m => m ++ ['\n'])).flatten ++ ['\n'] ++
    (pt.parts.map (fun p => p.render ++ ['\n'])).flatten

/-! ## The `sfdisk -d` output parser (Go `getPartitionTable`)

The Go loop keeps `pt.parts == nil` while in the metadata phase and
switches to the partition phase at the first blank (after trimming)
line; the embedding splits the same loop into the two phases. -/

/-- Whitespace normalisation around `=` (Go
`regexp.MustCompile(`\s*=\s*`).ReplaceAllString(attr, "=")`):
every `=` absorbs the whitespace runs around it.  Fuel-based so that
it evaluates by kernel reduction; `eqRx` supplies sufficient fuel. -/
def eqRxAux : Nat → List Char → List Char
  | 0, l => l
  | fuel + 1, l =>
    match l with
    | [] => []
    | c :: rest =>
      if c = '=' then '=' :: eqRxAux fuel (rest.dropWhile wsB)
      else if wsB c then
        match rest.dropWhile wsB with
        | a :: r2 =>
          if a = '=' then '=' :: eqRxAux fuel (r2.dropWhile wsB)
          else (c :: rest.takeWhile wsB) ++ eqRxAux fuel (rest.dropWhile wsB)
        | [] => (c :: rest.takeWhile wsB) ++ eqRxAux fuel (rest.dropWhile wsB)
      else c :: eqRxAux fuel rest

/-- Go `eqRx` replacement applied to a string. -/
def eqRx (l : List Char) : List Char := eqRxAux l.length l

/-- Metadata phase of `getPartitionTable`: trimmed non-blank lines
before the first blank line are metadata; returns the metadata rows
and, if a blank line occurred, the remaining lines. -/
def parseMetaPhase : List (List Char) → List (List Char) × Option (List (List Char))
  | [] => ([], none)
  | l :: rest =>
    let t := trimSpace l
    if t = [] then ([], some rest)
    else
      let (m, r) := parseMetaPhase rest
      (t :: m, r)

/-- Partition phase of `getPartitionTable`: blank lines are skipped;
each other line is split at the first `:` into the device and the
comma-separated attribute list (each attribute trimmed and
`=`-normalised); partition numbers continue from `pno`.  `none`
models the `log.Fatalf` on a line without `:`. -/
def parsePartsPhase (pno : Nat) : List (List Char) → Option (List sfdiskLine)
  | [] => some []
  | l :: rest =>
    let t := trimSpace l
    if t = [] then parsePartsPhase pno rest
    else
      match splitFirst ':' t with
      | none => none
      | some (f0, f1) =>
        (parsePartsPhase (pno + 1) rest).map (fun tail =>
          { dev := trimSpace f0,
            attr := (splitChar ',' (trimSpace f1)).map
              (fun a => eqRx (trimSpace a)),
            pno := pno + 1 } :: tail)

/-- Go `getPartitionTable`, as a function of the `sfdisk -d` output
text; `none` models the `log.Fatalf` exits. -/
def getPartitionTable (out : List Char) : Option partitionTable :=
  let lines := splitChar '\n' out
  match parseMetaPhase lines with
  | (meta, none) => some { meta := meta, parts := [] }
  | (meta, some rest) =>
    (parsePartsPhase 0 rest).map (fun parts => { meta := meta, parts := parts })

/-! ## Disk-device derivation (Go `diskDev`, part.go head version) -/

/-- Go `diskDev`: maps a partition device path to its whole-disk
path.  `none` models the `panic` exits (non-`/dev/` path, an nvme
path without a `p<digits>` suffix, and unsupported device types). -/
def diskDev (partDev : List Char) : Option (List Char) :=
  if !(("/dev/").toList.isPrefixOf partDev) then none
  else if ("/dev/sd").toList.isPrefixOf partDev then
    some (trimRightDigits partDev)
  else if ("/dev/mmcblk").toList.isPrefixOf partDev then
    some (trimSuffixChar 'p' (trimRightDigits partDev))
  else if ("/dev/nvme").toList.isPrefixOf partDev then
    match partDev.reverse.takeWhile Char.isDigit,
        partDev.reverse.dropWhile Char.isDigit with
    | _ :: _, 'p' :: rest2 => some rest2.reverse
    | _, _ => none
  else none

example : eqRx ("start =   2048").toList = ("start=2048").toList := by decide
example : eqRx ("bootable").toList = ("bootable").toList := by decide
example : diskDev ("/dev/sda3").toList = some ("/dev/sda").toList := by decide
example : diskDev ("/dev/nvme0n1p7").toList = some ("/dev/nvme0n1").toList := by
  decide
example : diskDev ("/dev/mmcblk0p2").toList = some ("/dev/mmcblk0").toList := by
  decide
example : diskDev ("/dev/vda1").toList = none := by decide
example : diskDev ("/dev/nvme0n1").toList = none := by decide
example : diskDev ("/tmp/foo1").toList = none := by decide

/-! ## The resize engine (Go `Resize`, resize.go)

A `Resizer` is embedded as its behaviour tree: the results the engine
would observe from its four operations, in the order the engine makes
the calls — `State()` before the resize (`state0`), `DepResizer()`
(an error, or an optional dependency), `Resize()`, and `State()`
after the resize (`state1`).  The engine additionally returns the
trace of calls it performed, embedding the call ordering. -/
inductive Resizer where
  | mk (label : String) (state0 : Except String String)
      (dep : Except String (Option Resizer))
      (res : Except String Unit)
      (state1 : Except String String) : Resizer

/-- One observable call the engine makes on a resizer (identified by
its label). -/
inductive REvent where
  | stateCall (label : String)
  | depCall (label : String)
  | resizeCall (label : String)
deriving DecidableEq

/-- Go `Resize` (resize.go): returns the call trace, the change lines
and the error, mirroring the source statement for statement:
state before (error returned unwrapped), dependency lookup (error
returned), recursive resize of the dependency (its changes taken
over, its error returned), the resize itself (error returned with the
changes accumulated so far), state after (error wrapped as
`error after successful resize of …`), and the change line appended
iff the two states differ. -/
def Resize : Resizer → List REvent × List String × Option String
  | .mk label s0 dep res s1 =>
    let t0 := [REvent.stateCall label]
    match s0 with
    | .error e => (t0, [], some e)
    | .ok s0v =>
      let t1 := t0 ++ [REvent.depCall label]
      match dep with
      | .error e => (t1, [], some e)
      | .ok depOpt =>
        let rec0 : List REvent × List String × Option String :=
          match depOpt with
          | none => ([], [], none)
          | some d => Resize d
        match rec0.2.2 with
        | some e => (t1 ++ rec0.1, rec0.2.1, some e)
        | none =>
          let t3 := t1 ++ rec0.1 ++ [REvent.resizeCall label]
          match res with
          | .error e => (t3, rec0.2.1, some e)
          | .ok _ =>
            let t4 := t3 ++ [REvent.stateCall label]
            match s1 with
            | .error e =>
              (t4, rec0.2.1,
                some ("error after successful resize of " ++ label ++ ": " ++ e))
            | .ok s1v =>
              (t4,
                (if s0v = s1v then rec0.2.1
                 else rec0.2.1 ++
                   [label ++ ": before: " ++ s0v ++ ", after: " ++ s1v]),
                none)

/-! ## LVM growers (lvm.go) -/

/-- The observable result of running an external command: success
with its output, failure with a captured stderr (Go `*exec.ExitError`
from `Output()`), or a failure to run at all (non-`ExitError`). -/
inductive CmdResult where
  | ok (out : List Char)
  | exitErr (stderr : List Char)
  | startErr
deriving DecidableEq

/-- The error returned by `lvResizer.Resize`: carries the device and
the captured stderr (empty when the failure produced none). -/
inductive LvResizeErr where
  | lvextendFailed (dev : List Char) (stderr : List Char)
deriving DecidableEq

/-- Go `lvResizer.Resize` as a function of the `lvextend -l +100%FREE`
command result: an `ExitError` whose stderr contains
`matches existing size` is success with no change; any other failure
is an error carrying the captured stderr. -/
def lvResize (dev : List Char) (r : CmdResult) : Option LvResizeErr :=
  match r with
  | .ok _ => none
  | .exitErr stderr =>
    if containsSub stderr ("matches existing size").toList then none
    else some (.lvextendFailed dev stderr)
  | .startErr => some (.lvextendFailed dev [])

/-- Go `pvResizer.Resize` as a function of the `pvresize` command
result: any failure is an error. -/
def pvResize (dev : List Char) (r : CmdResult) : Option LvResizeErr :=
  match r with
  | .ok _ => none
  | .exitErr out => some (.lvextendFailed dev out)
  | .startErr => some (.lvextendFailed dev [])

/-- Go `fsResizer.Resize` as a function of the dry-run flag and the
grow command result: dry-run prints and succeeds without running; any
real failure is an error. -/
def fsResize (dry : Bool) (dev : List Char) (r : CmdResult) :
    Option LvResizeErr :=
  if dry then none
  else
    match r with
    | .ok _ => none
    | .exitErr out => some (.lvextendFailed dev out)
    | .startErr => some (.lvextendFailed dev [])

/-- Go `lvResizer.state` parsing of `lvdisplay -c` output: split the
trimmed line on `:`, require at least 13 fields, volume group is
field 1 and the sector count is field 6. -/
def lvStateParse (out : List Char) : Option (List Char × Int) :=
  let f := splitChar ':' (trimSpace out)
  if f.length < 13 then none
  else
    match f.get? 1, (f.get? 6).bind parseIntGo with
    | some vg, some n => some (vg, n)
    | _, _ => none

/-- The scan inside `lvResizer.DepResizer` over the `pvdisplay -c`
output lines: skip lines whose trimmed `:`-split has fewer than 2
fields or whose second field differs from the volume group; the first
matching line yields the PV device (its first field). -/
def lvDepScan (vg : List Char) : List (List Char) → Option (List Char)
  | [] => none
  | l :: rest =>
    match splitChar ':' (trimSpace l) with
    | f0 :: f1 :: _ =>
      if f1 = vg then some f0 else lvDepScan vg rest
    | _ => lvDepScan vg rest

/-- Go `lvResizer.DepResizer`: read the LV state (propagating its
error), run `pvdisplay -c` (propagating its error), then scan the
lines; when no line matches the volume group the result is
`(nil, nil)` — no dependency and no error. -/
def lvDepResizer (stateRes : Except (List Char) (List Char))
    (pvOut : Except (List Char) (List (List Char))) :
    Except (List Char) (Option (List Char)) :=
  match stateRes with
  | .error e => .error e
  | .ok vg =>
    match pvOut with
    | .error e => .error e
    | .ok lines => .ok (lvDepScan vg lines)

/-- Go `devEndsInNumber`. -/
def devEndsInNumber (d : List Char) : Bool :=
  match d.reverse with
  | c :: _ => c.isDigit
  | [] => false

/-- Go `pvResizer.DepResizer`: a partition resizer when the PV path
ends in a digit, else none. -/
def pvDepResizer (dev : List Char) : Option (List Char) :=
  if devEndsInNumber dev then some dev else none

/-! ## Mount resolver (fs.go) -/

/-- A directory entry of `/dev` as `findDevRoot` observes it: name,
whether it is a block device (`ModeDevice` set, `ModeCharDevice`
clear), and its device number (`Rdev`). -/
structure DevEntry where
  name : List Char
  isBlock : Bool
  rdev : Nat
deriving DecidableEq

/-- The errors of `statFS` / `findDevRoot`. -/
inductive FsErr where
  | mountNotFound
  | devRootNotFound
  | noDevRootMatch
deriving DecidableEq

/-- Go `findDevRoot`: collect the block-device entries of `/dev`,
find the device number of the entry named `root`, then return
`/dev/<name>` for an entry with the same device number and a
different name.  (Go iterates a map in unspecified order; the
embedding uses the listing order — the properties proved below only
use that the result is some matching entry other than `root`.)
`devBlockPairs` is the loop building the `dev` map: the block-device
entries as `(name, rdev)` pairs. -/
def devBlockPairs (entries : List DevEntry) : List (List Char × Nat) :=
  entries.filterMap
    (fun e => if e.isBlock then some (e.name, e.rdev) else none)

/-- Continuation of `findDevRoot` (doc above). -/
def findDevRoot (entries : List DevEntry) : Except FsErr (List Char) :=
  match ((devBlockPairs entries).find?
      (fun p => p.1 = ("root").toList)).map Prod.snd with
  | none => .error .devRootNotFound
  | some want =>
    match (devBlockPairs entries).find?
        (fun p => decide (p.2 = want ∧ p.1 ≠ ("root").toList)) with
    | some p => .ok (("/dev/").toList ++ p.1)
    | none => .error .noDevRootMatch

/-- Go `statFS` scanning `/proc/mounts` (the `unix.Statfs` call and
the error-message wrapping around `findDevRoot` failures are not
modelled): skip lines with fewer than 3 fields and lines whose first
field is `rootfs`; the first line whose second field is the mount
point yields `(device, fstype)`, with `/dev/root` resolved through
`findDevRoot`. -/
def statFS (mnt : List Char) (entries : List DevEntry) :
    List (List Char) → Except FsErr (List Char × List Char)
  | [] => .error .mountNotFound
  | l :: rest =>
    match fieldsGo l with
    | a :: b :: c :: _ =>
      if a = ("rootfs").toList then statFS mnt entries rest
      else if b = mnt then
        match (if a = ("/dev/root").toList then findDevRoot entries
          else .ok a : Except FsErr (List Char)) with
        | .error e => .error e
        | .ok dev => .ok (dev, c)
      else statFS mnt entries rest
    | _ => statFS mnt entries rest

/-! ## The partition grower (Go `partitionResizer.Resize`, part.go) -/

/-- The GPT partition type GUIDs accepted by the grower. -/
def lvmGPTTypeID : List Char := ("E6D6D379-F507-44C2-A23C-238F2A3DF928").toList

/-- x86-64 root partition GUID. -/
def rootx8664GPTTypeID : List Char :=
  ("4F68BCE3-E8CD-4DB1-96E7-FBCAF984B709").toList

/-- Linux filesystem partition GUID. -/
def linuxGPTTypeID : List Char := ("0FC63DAF-8483-4772-8E79-3D69D8477DE4").toList

/-- The test `part.Type() == "0" && part.Start() == 0 && part.Size() == 0`
used to skip useless partition rows, with Go's left-to-right
short-circuit evaluation: `Start`/`Size` are only read (and can only
hit their fatal exits, modelled as `none`) when the previous conjunct
held. -/
def zeroRow (sl : sfdiskLine) : Option Bool :=
  if sl.TypeAttr ≠ ("0").toList then some false
  else
    match sl.Start with
    | none => none
    | some s =>
      if s ≠ 0 then some false
      else
        match sl.Size with
        | none => none
        | some z => some (decide (z = 0))

/-- The downward loop of `partitionTable.lastNonZeroPartition`,
returning the index of the selected row (`some (some i)`), `some none`
when every row is a zero row, and `none` for a fatal exit inside a
zero test.  The index (rather than the row itself) is returned because
in Go the row's attribute slice aliases the table, so a later
`SetSize` updates the table row; the embedding below writes the
updated row back at this index. -/
def lastNonZeroIdxGo (parts : List sfdiskLine) : Nat → Option (Option Nat)
  | 0 => some none
  | i + 1 =>
    match parts.get? i with
    | none => some none
    | some p =>
      match zeroRow p with
      | none => none
      | some true => lastNonZeroIdxGo parts i
      | some false => some (some i)

/-- Go `partitionTable.lastNonZeroPartition`, as the selected index. -/
def lastNonZeroIdx (parts : List sfdiskLine) : Option (Option Nat) :=
  lastNonZeroIdxGo parts parts.length

/-- The errors `partitionResizer.Resize` can return (messages carry
the data the Go `fmt.Errorf` formats into them). -/
inductive PartErr where
  | blkidFailed
  | blkidNotDos (pttype : List Char)
  | unsupportedLabel (label : List Char)
  | noNonZeroPartition
  | unknownGPTType (t : List Char)
  | unknownMBRType (t : List Char)
  | readDiskSizeFailed
deriving DecidableEq

/-- The outcome of `partitionResizer.Resize`:
`fatal` models the `log.Fatalf` / `panic` exits, `failure` a returned
error, `noChange` the early `return nil` when the partition is already
at maximal size (no table write, no ioctl), `dryRunStop` the dry-run
return before the table write, and
`resized pt ioctlStart ioctlLen pno` the successful path — the table
written through `sfdisk` followed by the
`BLKPG_RESIZE_PARTITION` ioctl with byte offset `ioctlStart`, byte
length `ioctlLen` and partition number `pno` (the external `sfdisk`
run itself is not modelled). -/
inductive PartOutcome where
  | fatal
  | failure (e : PartErr)
  | noChange
  | dryRunStop
  | resized (pt : partitionTable) (ioctlStart ioctlLen : Int) (pno : Nat)
deriving DecidableEq

/-- The `switch t := pt.Meta("label")` of `partitionResizer.Resize`:
`dos` and `gpt` are accepted; an absent label consults the
`blkid -o export` oracle (`none` = failed run or missing `PTTYPE`
line) and accepts only `PTTYPE=dos`; anything else is an error. -/
def labelToIsGPT (blk : Option (List Char)) (label : List Char) :
    Except PartErr Bool :=
  if label = ("dos").toList then .ok false
  else if label = ("gpt").toList then .ok true
  else if label = [] then
    match blk with
    | none => .error .blkidFailed
    | some t =>
      if t = ("dos").toList then .ok false else .error (.blkidNotDos t)
  else .error (.unsupportedLabel label)

/-- The partition-type switch of `partitionResizer.Resize`: for GPT
the three known GUIDs are accepted, for MBR only type `83`. -/
def typeGate (isGPT : Bool) (t : List Char) : Option PartErr :=
  if isGPT then
    if t = lvmGPTTypeID ∨ t = rootx8664GPTTypeID ∨ t = linuxGPTTypeID then none
    else some (.unknownGPTType t)
  else if t = ("83").toList then none else some (.unknownMBRType t)

/-- The tail of `partitionResizer.Resize`, after the disk size `size`
and the selected row\'s `start`/`size` attributes have been read:
`end := st + sz`, `remain := size - end`,
`endReserve := (1 << 20) / 512 = 2048`; if `remain ≤ endReserve`,
return nil with no change; otherwise `SetSize(sz + remain -
endReserve)`, `RemoveMeta("last-lba")`, and (unless dry-run) write
the table and issue the ioctl with the re-read `start*512`,
`size*512` and partition number of the (aliased, hence updated in the
table) row. -/
def growPart (dry : Bool) (pt : partitionTable) (i : Nat) (part : sfdiskLine)
    (size st sz : Int) : PartOutcome :=
  if size - (st + sz) ≤ 1048576 / 512 then .noChange
  else
    match part.SetSize (sz + (size - (st + sz) - 1048576 / 512)) with
    | none => .fatal
    | some part2 =>
      if dry then .dryRunStop
      else
        match part2.Start, part2.Size with
        | some st2, some sz2 =>
          .resized (partitionTable.mk
              ((pt.RemoveMeta ("last-lba").toList).meta)
              (pt.parts.set i part2))
            (st2 * 512) (sz2 * 512) part2.pno
        | _, _ => .fatal

/-- Go `partitionResizer.Resize` from the point where the partition
table has been read (`getPartitionTable` output `pt`), as a function
of the oracles for the external observations: the dry-run flag, the
`blkid -o export` `PTTYPE` value (only consulted when the `label`
metadata row is absent), and the disk size in sectors from
`/sys/block/<disk>/size` (`none` for a read error).  Mirrors part.go
lines 86-206. -/
def partitionResize (dry : Bool) (blkidPTTYPE : Option (List Char))
    (diskSize : Option Int) (pt : partitionTable) : PartOutcome :=
  if pt.parts = [] then .fatal
  else
    match labelToIsGPT blkidPTTYPE (pt.Meta ("label").toList) with
    | .error e => .failure e
    | .ok isGPT =>
      match lastNonZeroIdx pt.parts with
      | none => .fatal
      | some none => .failure .noNonZeroPartition
      | some (some i) =>
        match pt.parts.get? i with
        | none => .fatal
        | some part =>
          match typeGate isGPT part.TypeAttr with
          | some e => .failure e
          | none =>
            match diskSize with
            | none => .failure .readDiskSizeFailed
            | some size =>
              match part.Start, part.Size with
              | some st, some sz => growPart dry pt i part size st sz
              | _, _ => .fatal

deriving instance DecidableEq for Except

/-- The first character, if any, is not whitespace. -/
def headNotWs : List Char → Bool
  | [] => true
  | c :: _ => !wsB c

/-- The last character, if any, is not whitespace. -/
def lastNotWs (l : List Char) : Bool := headNotWs l.reverse

/-- `=`-normal form: no whitespace character is adjacent to an `=`
(the image of the `eqRx` replacement). -/
def normB : List Char → Bool
  | [] => true
  | [_] => true
  | a :: b :: rest =>
    !(wsB a && b = '=') && !(a = '=' && wsB b) && normB (b :: rest)

/-- Partition numbers are consecutive starting at `k + 1` (the way
`getPartitionTable` assigns them). -/
def pnoSeq : Nat → List sfdiskLine → Prop
  | _, [] => True
  | k, p :: ps => p.pno = k + 1 ∧ pnoSeq (k + 1) ps

/-- The invariant every partition row produced by `getPartitionTable`
satisfies: trimmed device without `:` or newline, and trimmed,
`=`-normalised attributes without `,` or newline, at least one. -/
def rowWF (p : sfdiskLine) : Prop :=
  headNotWs p.dev = true ∧ lastNotWs p.dev = true ∧
  (':') ∉ p.dev ∧ ('\n') ∉ p.dev ∧
  p.attr ≠ [] ∧
  ∀ a ∈ p.attr, headNotWs a = true ∧ lastNotWs a = true ∧
    normB a = true ∧ (',') ∉ a ∧ ('\n') ∉ a

/-- The invariant every table produced by `getPartitionTable`
satisfies. -/
def tableWF (pt : partitionTable) : Prop :=
  (∀ m ∈ pt.meta, headNotWs m = true ∧ lastNotWs m = true ∧ m ≠ [] ∧
    ('\n') ∉ m) ∧
  (∀ p ∈ pt.parts, rowWF p) ∧
  pnoSeq 0 pt.parts

/-! ## Concrete fixtures (from the sfdisk output samples in the
source comments), used by witness theorems -/

/-- The single partition row of the MBR sample. -/
def wtRowDos : sfdiskLine :=
  { dev := ("/dev/sda1").toList,
    attr := [("start=2048").toList, ("size=497664").toList,
             ("type=83").toList, ("bootable").toList],
    pno := 1 }

/-- The MBR sample table. -/
def wtTableDos : partitionTable :=
  { meta := [("label: dos").toList, ("label-id: 0xeba7536a").toList,
             ("device: /dev/sda").toList, ("unit: sectors").toList],
    parts := [wtRowDos] }

/-- A row carrying `Id=83` (old sfdisk) instead of `type=83`. -/
def wtRowId : sfdiskLine :=
  { dev := ("/dev/sda1").toList,
    attr := [("start=2048").toList, ("size=497664").toList,
             ("Id=83").toList],
    pno := 1 }

/-- Spec-side description of a `pvdisplay -c` line matching volume
group `vg` in `lvResizer.DepResizer`: the trimmed `:`-split has at
least two fields and the second equals `vg`. -/
def pvLineMatches (vg l : List Char) : Bool :=
  match splitChar ':' (trimSpace l) with
  | _ :: f1 :: _ => f1 = vg
  | _ => false

/-- Spec-side description of a `/proc/mounts` line `statFS` accepts
for mount point `mnt`: at least 3 fields, first field not `rootfs`,
second field equal to `mnt`. -/
def mountLineMatch (mnt : List Char) (l : List Char) : Bool :=
  match fieldsGo l with
  | a :: b :: _ :: _ => !(a = ("rootfs").toList) && (b = mnt)
  | _ => false

/-! ## Basic lemmas: characters, digits, decimal round-trip -/

theorem char_ne_of_toNat_ne {c d : Char} (h : c.toNat ≠ d.toNat) : c ≠ d :=
  fun e => h (by rw [e])

theorem wsB_eq_false_of_digit {c : Char} (h : isDigitB c = true) :
    wsB c = false := by
  simp only [isDigitB, Bool.and_eq_true, decide_eq_true_eq] at h
  simp only [wsB, Bool.or_eq_false_iff, decide_eq_false_iff_not]
  refine ⟨⟨⟨⟨⟨?_, ?_⟩, ?_⟩, ?_⟩, ?_⟩, ?_⟩ <;>
    apply char_ne_of_toNat_ne <;>
    first
      | (rw [show (' ').toNat = 32 from rfl]; omega)
      | (rw [show ('\t').toNat = 9 from rfl]; omega)
      | (rw [show ('\n').toNat = 10 from rfl]; omega)
      | (rw [show ('\x0B').toNat = 11 from rfl]; omega)
      | (rw [show ('\x0C').toNat = 12 from rfl]; omega)
      | (rw [show ('\r').toNat = 13 from rfl]; omega)

theorem natReprAux_append (fuel : Nat) : ∀ (n : Nat) (acc : List Char),
    natReprAux fuel n acc = natReprAux fuel n [] ++ acc := by
  induction fuel with
  | zero => intro n acc; simp [natReprAux]
  | succ fuel ih =>
    intro n acc
    by_cases h : n = 0
    · simp [natReprAux, h]
    · simp only [natReprAux, if_neg h]
      rw [ih (n / 10) (Char.ofNat (48 + n % 10) :: acc),
        ih (n / 10) [Char.ofNat (48 + n % 10)]]
      simp

theorem natReprAux_fuel : ∀ (n f1 f2 : Nat), n < f1 → n < f2 →
    natReprAux f1 n [] = natReprAux f2 n [] := by
  intro n
  induction n using Nat.strong_induction_on with
  | _ n ih =>
    intro f1 f2 h1 h2
    match f1, f2 with
    | g1 + 1, g2 + 1 =>
      by_cases h : n = 0
      · simp [natReprAux, h]
      · simp only [natReprAux, if_neg h]
        rw [natReprAux_append g1, natReprAux_append g2]
        have hlt : n / 10 < n := Nat.div_lt_self (Nat.pos_of_ne_zero h) (by omega)
        rw [ih (n / 10) hlt g1 g2 (by omega) (by omega)]

theorem isDigitB_digitChar {m : Nat} (h : m < 10) :
    isDigitB (Char.ofNat (48 + m)) = true := by
  interval_cases m <;> decide

theorem digitVal_digitChar {m : Nat} (h : m < 10) :
    digitVal (Char.ofNat (48 + m)) = m := by
  interval_cases m <;> decide

theorem natReprAux_all_digits : ∀ (n fuel : Nat), n < fuel →
    (natReprAux fuel n []).all isDigitB = true := by
  intro n
  induction n using Nat.strong_induction_on with
  | _ n ih =>
    intro fuel hf
    match fuel with
    | g + 1 =>
      by_cases h : n = 0
      · simp [natReprAux, h]
      · simp only [natReprAux, if_neg h]
        rw [natReprAux_append g]
        have hlt : n / 10 < n := Nat.div_lt_self (Nat.pos_of_ne_zero h) (by omega)
        rw [List.all_append]
        refine Bool.and_eq_true_iff.mpr ⟨ih (n / 10) hlt g (by omega), ?_⟩
        simp [isDigitB_digitChar (Nat.mod_lt n (by omega))]

theorem natReprAux_foldl : ∀ (n fuel : Nat) (a : Nat), n < fuel →
    List.foldl (fun x c => x * 10 + digitVal c) a (natReprAux fuel n []) =
      a * 10 ^ (natReprAux fuel n []).length + n := by
  intro n
  induction n using Nat.strong_induction_on with
  | _ n ih =>
    intro fuel a hf
    match fuel with
    | g + 1 =>
      by_cases h : n = 0
      · simp [natReprAux, h]
      · simp only [natReprAux, if_neg h]
        rw [natReprAux_append g]
        have hlt : n / 10 < n := Nat.div_lt_self (Nat.pos_of_ne_zero h) (by omega)
        rw [List.foldl_append, ih (n / 10) hlt g a (by omega)]
        simp only [List.foldl_cons, List.foldl_nil, List.length_append,
          List.length_cons, List.length_nil]
        rw [digitVal_digitChar (Nat.mod_lt n (by omega))]
        rw [pow_succ]
        have hu : a * (10 ^ (natReprAux g (n / 10) []).length * 10) =
            a * 10 ^ (natReprAux g (n / 10) []).length * 10 := by ring
        rw [hu]
        have hdm := Nat.div_add_mod n 10
        omega

theorem natRepr_ne_nil (n : Nat) : natRepr n ≠ [] := by
  by_cases h : n = 0
  · simp [natRepr, h]
  · simp only [natRepr, if_neg h, natReprAux]
    rw [natReprAux_append n]
    simp

theorem natRepr_all_digits (n : Nat) : (natRepr n).all isDigitB = true := by
  by_cases h : n = 0
  · simp [natRepr, h]; decide
  · simp only [natRepr, if_neg h]
    exact natReprAux_all_digits n (n + 1) (by omega)

theorem parseNatGo_natRepr (n : Nat) : parseNatGo (natRepr n) = some n := by
  by_cases h : n = 0
  · subst h; decide
  · have hne := natRepr_ne_nil n
    have hall := natRepr_all_digits n
    simp only [parseNatGo, if_pos (And.intro hne hall)]
    simp only [natRepr, if_neg h]
    rw [natReprAux_foldl n (n + 1) 0 (by omega)]
    simp

theorem exists_cons_of_ne_nil {l : List Char} (h : l ≠ []) :
    ∃ c cs, l = c :: cs := by
  cases l with
  | nil => exact absurd rfl h
  | cons c cs => exact ⟨c, cs, rfl⟩

theorem head_digit_ne_sign {c : Char} (h : isDigitB c = true) :
    c ≠ '-' ∧ c ≠ '+' := by
  simp only [isDigitB, Bool.and_eq_true, decide_eq_true_eq] at h
  constructor <;> apply char_ne_of_toNat_ne <;>
    first
      | (rw [show ('-').toNat = 45 from rfl]; omega)
      | (rw [show ('+').toNat = 43 from rfl]; omega)

theorem parseIntGo_intRepr (i : Int) : parseIntGo (intRepr i) = some i := by
  by_cases hneg : i < 0
  · have h1 : intRepr i = '-' :: natRepr i.natAbs := by simp [intRepr, hneg]
    have h2 : parseIntGo ('-' :: natRepr i.natAbs)
        = (parseNatGo (natRepr i.natAbs)).map (fun n => -(Int.ofNat n)) := rfl
    rw [h1, h2, parseNatGo_natRepr, Option.map_some']
    congr 1
    rw [Int.ofNat_eq_natCast]
    have h3 : ((i.natAbs : Int)) = -i := by
      simpa using Int.ofNat_natAbs_of_nonpos (le_of_lt hneg)
    omega
  · have h1 : intRepr i = natRepr i.toNat := by simp [intRepr, hneg]
    rw [h1]
    obtain ⟨c, cs, hc⟩ := exists_cons_of_ne_nil (natRepr_ne_nil i.toNat)
    have hdig : isDigitB c = true := by
      have hall := natRepr_all_digits i.toNat
      rw [hc] at hall
      simp only [List.all_cons, Bool.and_eq_true] at hall
      exact hall.1
    obtain ⟨hm, hp⟩ := head_digit_ne_sign hdig
    rw [hc]
    have h2 : parseIntGo (c :: cs)
        = if c = '-' then (parseNatGo cs).map (fun n => -(Int.ofNat n))
          else if c = '+' then (parseNatGo cs).map (fun n => Int.ofNat n)
          else (parseNatGo (c :: cs)).map (fun n => Int.ofNat n) := rfl
    rw [h2, if_neg hm, if_neg hp, ← hc, parseNatGo_natRepr, Option.map_some']
    congr 1
    rw [Int.ofNat_eq_natCast]
    exact Int.toNat_of_nonneg (by omega)

/-! ## Trimming lemmas -/

theorem dropWhile_eq_self_of_none {p : Char → Bool} {l : List Char}
    (h : ∀ c ∈ l, p c = false) : l.dropWhile p = l := by
  cases l with
  | nil => rfl
  | cons c cs => simp [List.dropWhile, h c (by simp)]

theorem trimSpace_eq_self_of_no_ws {l : List Char}
    (h : ∀ c ∈ l, wsB c = false) : trimSpace l = l := by
  unfold trimSpace trimL trimR
  have h1 : List.dropWhile wsB l.reverse = l.reverse :=
    dropWhile_eq_self_of_none (by intro c hc; exact h c (List.mem_reverse.mp hc))
  rw [h1, List.reverse_reverse, dropWhile_eq_self_of_none h]

theorem intRepr_no_ws (i : Int) : ∀ c ∈ intRepr i, wsB c = false := by
  intro c hc
  unfold intRepr at hc
  by_cases hneg : i < 0
  · rw [if_pos hneg] at hc
    rcases List.mem_cons.mp hc with h | h
    · subst h; decide
    · have := natRepr_all_digits i.natAbs
      rw [List.all_eq_true] at this
      exact wsB_eq_false_of_digit (this c h)
  · rw [if_neg hneg] at hc
    have := natRepr_all_digits i.toNat
    rw [List.all_eq_true] at this
    exact wsB_eq_false_of_digit (this c hc)

theorem trimSpace_intRepr (i : Int) : trimSpace (intRepr i) = intRepr i :=
  trimSpace_eq_self_of_no_ws (intRepr_no_ws i)

theorem intRepr_ne_nil (i : Int) : intRepr i ≠ [] := by
  unfold intRepr
  by_cases h : i < 0
  · simp [h]
  · simp only [if_neg h]
    exact natRepr_ne_nil i.toNat

theorem slAttrGo_cons (k a : List Char) (rest : List (List Char)) :
    slAttrGo k (a :: rest)
      = if a = k then k
        else if ((k ++ ['=']).isPrefixOf a) = true then
          trimSpace (a.drop (k.length + 1))
        else slAttrGo k rest := rfl

theorem slSetSizeGo_cons (n : Int) (a : List Char) (rest : List (List Char)) :
    slSetSizeGo n (a :: rest)
      = if (("size=").toList.isPrefixOf a) = true then
          some ((("size=").toList ++ intRepr n) :: rest)
        else (slSetSizeGo n rest).map (fun r => a :: r) := rfl

theorem slSetSizeGo_spec (n : Int) : ∀ (attrs : List (List Char)) (v : Int),
    parseIntGo (slAttrGo ("size").toList attrs) = some v →
    ∃ attrs', slSetSizeGo n attrs = some attrs' ∧
      slAttrGo ("size").toList attrs' = intRepr n ∧
      slAttrGo ("start").toList attrs' = slAttrGo ("start").toList attrs := by
  intro attrs
  induction attrs with
  | nil => intro v hv; simp [slAttrGo, parseIntGo] at hv
  | cons a rest ih =>
    intro v hv
    by_cases hpre : (("size=").toList.isPrefixOf a) = true
    · -- the first `size=`-prefixed attribute: SetSize replaces it here
      obtain ⟨t, ht⟩ : ∃ t, a = ("size=").toList ++ t := by
        have hp := (List.isPrefixOf_iff_prefix).mp hpre
        obtain ⟨t, ht⟩ := hp
        exact ⟨t, ht.symm⟩
      refine ⟨(("size=").toList ++ intRepr n) :: rest, ?_, ?_, ?_⟩
      · rw [slSetSizeGo_cons, if_pos hpre]
      · have hne : (("size=").toList ++ intRepr n) ≠ ("size").toList := by
          intro he
          have hl := congrArg List.length he
          simp only [List.length_append] at hl
          have hnn : 0 < (intRepr n).length :=
            List.length_pos.mpr (intRepr_ne_nil n)
          simp at hl
          omega
        have hpre2 : ((("size").toList ++ ['=']).isPrefixOf
            (("size=").toList ++ intRepr n)) = true := by
          apply (List.isPrefixOf_iff_prefix).mpr
          exact ⟨intRepr n, by rfl⟩
        rw [slAttrGo_cons, if_neg hne, if_pos hpre2]
        have hdrop : (("size=").toList ++ intRepr n).drop
            ((("size").toList).length + 1) = intRepr n := by
          have hh : (("size").toList).length + 1 = (("size=").toList).length :=
            by decide
          rw [hh, List.drop_left]
        rw [hdrop, trimSpace_intRepr]
      · -- `start` lookups skip any `size=`-prefixed attribute
        subst ht
        have h1 : ("size=").toList ++ intRepr n ≠ ("start").toList := by
          intro he
          rw [show ("size=").toList = 's' :: 'i' :: 'z' :: 'e' :: '=' :: []
            from rfl] at he
          simp [List.cons_eq_cons] at he
        have h2 : ("size=").toList ++ t ≠ ("start").toList := by
          intro he
          rw [show ("size=").toList = 's' :: 'i' :: 'z' :: 'e' :: '=' :: []
            from rfl] at he
          simp [List.cons_eq_cons] at he
        have h3 : ∀ (x : List Char), ((("start").toList ++ ['=']).isPrefixOf
            (("size=").toList ++ x)) = false := by
          intro x
          rw [show ("size=").toList = 's' :: 'i' :: 'z' :: 'e' :: '=' :: []
            from rfl,
            show ("start").toList ++ ['='] =
              's' :: 't' :: 'a' :: 'r' :: 't' :: '=' :: [] from rfl]
          simp [List.isPrefixOf]
        rw [slAttrGo_cons, if_neg h1, slAttrGo_cons, if_neg h2, h3, h3]
        simp
    · -- SetSize and the lookups all skip this attribute
      have hasz : a ≠ ("size").toList := by
        intro he
        subst he
        rw [slAttrGo_cons, if_pos rfl,
          show parseIntGo ("size").toList = none from by decide] at hv
        exact Option.noConfusion hv
      have hpre' : ((("size").toList ++ ['=']).isPrefixOf a) = false := by
        rw [show ("size").toList ++ ['='] = ("size=").toList from rfl]
        exact Bool.eq_false_iff.mpr hpre
      have hv' : parseIntGo (slAttrGo ("size").toList rest) = some v := by
        rw [← hv, slAttrGo_cons, if_neg hasz, hpre']
        simp
      obtain ⟨attrs', h1, h2, h3⟩ := ih v hv'
      refine ⟨a :: attrs', ?_, ?_, ?_⟩
      · rw [slSetSizeGo_cons, if_neg (Bool.eq_false_iff.mp
          (Bool.eq_false_iff.mpr hpre)), h1]
        rfl
      · rw [slAttrGo_cons, if_neg hasz, hpre']
        simpa using h2
      · by_cases hst : a = ("start").toList
        · rw [slAttrGo_cons, if_pos hst, slAttrGo_cons, if_pos hst]
        · by_cases hstp : ((("start").toList ++ ['=']).isPrefixOf a) = true
          · rw [slAttrGo_cons, if_neg hst, if_pos hstp,
              slAttrGo_cons, if_neg hst, if_pos hstp]
          · have hstp' := Bool.eq_false_iff.mpr hstp
            rw [slAttrGo_cons, if_neg hst, hstp',
              slAttrGo_cons, if_neg hst, hstp']
            simpa using h3

/-! ## Reduction lemmas for `partitionResize` -/

theorem ne_nil_of_get?_eq_some {parts : List sfdiskLine} {i : Nat}
    {part : sfdiskLine} (h : parts.get? i = some part) : parts ≠ [] := by
  intro e
  subst e
  simp at h

theorem int_reserve_eq : (1048576 : Int) / 512 = 2048 := by decide

theorem partitionResize_eq_growPart (dry : Bool) (blk : Option (List Char))
    (pt : partitionTable) (isGPT : Bool) (i : Nat) (part : sfdiskLine)
    (D st sz : Int)
    (hlab : labelToIsGPT blk (pt.Meta ("label").toList) = .ok isGPT)
    (hlast : lastNonZeroIdx pt.parts = some (some i))
    (hget : pt.parts.get? i = some part)
    (htype : typeGate isGPT part.TypeAttr = none)
    (hst : part.Start = some st) (hsz : part.Size = some sz) :
    partitionResize dry blk (some D) pt = growPart dry pt i part D st sz := by
  have hne := ne_nil_of_get?_eq_some hget
  unfold partitionResize
  rw [if_neg hne, hlab, hlast]
  simp only [hget, htype, hst, hsz]

theorem growPart_noChange (dry : Bool) (pt : partitionTable) (i : Nat)
    (part : sfdiskLine) (D st sz : Int) (h : D - (st + sz) ≤ 2048) :
    growPart dry pt i part D st sz = .noChange := by
  unfold growPart
  rw [int_reserve_eq, if_pos h]

theorem growPart_grow (pt : partitionTable) (i : Nat) (part : sfdiskLine)
    (D st sz : Int)
    (hst : part.Start = some st) (hsz : part.Size = some sz)
    (h : 2048 < D - (st + sz)) :
    ∃ part2, part.SetSize (sz + (D - (st + sz) - 2048)) = some part2 ∧
      part2.Start = some st ∧
      part2.Size = some (sz + (D - (st + sz) - 2048)) ∧
      part2.pno = part.pno ∧ part2.dev = part.dev ∧
      growPart false pt i part D st sz =
        .resized (partitionTable.mk
            ((pt.RemoveMeta ("last-lba").toList).meta)
            (pt.parts.set i part2))
          (st * 512) ((sz + (D - (st + sz) - 2048)) * 512) part.pno := by
  have hszv : parseIntGo (slAttrGo ("size").toList part.attr) = some sz := hsz
  obtain ⟨attrs2, hset, hsize2, hstart2⟩ :=
    slSetSizeGo_spec (sz + (D - (st + sz) - 2048)) part.attr sz hszv
  refine ⟨{ part with attr := attrs2 }, ?_, ?_, ?_, rfl, rfl, ?_⟩
  · unfold sfdiskLine.SetSize
    rw [hset]
    rfl
  · show parseIntGo (slAttrGo ("start").toList attrs2) = some st
    rw [hstart2]
    exact hst
  · show parseIntGo (slAttrGo ("size").toList attrs2)
      = some (sz + (D - (st + sz) - 2048))
    rw [hsize2]
    exact parseIntGo_intRepr _
  · unfold growPart
    rw [int_reserve_eq, if_neg (by omega)]
    have hset' : part.SetSize (sz + (D - (st + sz) - 2048))
        = some { part with attr := attrs2 } := by
      unfold sfdiskLine.SetSize
      rw [hset]
      rfl
    simp only [hset']
    have hstart2' : sfdiskLine.Start { part with attr := attrs2 } = some st := by
      show parseIntGo (slAttrGo ("start").toList attrs2) = some st
      rw [hstart2]
      exact hst
    have hsize2' : sfdiskLine.Size { part with attr := attrs2 }
        = some (sz + (D - (st + sz) - 2048)) := by
      show parseIntGo (slAttrGo ("size").toList attrs2)
        = some (sz + (D - (st + sz) - 2048))
      rw [hsize2]
      exact parseIntGo_intRepr _
    simp only [hstart2', hsize2']
    rfl

theorem partitionResize_gateFail (dry : Bool) (blk : Option (List Char))
    (dsz : Option Int) (pt : partitionTable) (isGPT : Bool) (i : Nat)
    (part : sfdiskLine) (e : PartErr)
    (hlab : labelToIsGPT blk (pt.Meta ("label").toList) = .ok isGPT)
    (hlast : lastNonZeroIdx pt.parts = some (some i))
    (hget : pt.parts.get? i = some part)
    (htype : typeGate isGPT part.TypeAttr = some e) :
    partitionResize dry blk dsz pt = .failure e := by
  have hne := ne_nil_of_get?_eq_some hget
  unfold partitionResize
  rw [if_neg hne, hlab, hlast]
  simp only [hget, htype]

theorem lastNonZeroIdxGo_sound (parts : List sfdiskLine) :
    ∀ (n i : Nat), lastNonZeroIdxGo parts n = some (some i) →
      i < n ∧ (∃ p, parts.get? i = some p ∧ zeroRow p = some false) ∧
      (∀ j, i < j → j < n → ∃ q, parts.get? j = some q ∧
        zeroRow q = some true) := by
  intro n
  induction n with
  | zero => intro i h; simp [lastNonZeroIdxGo] at h
  | succ n ih =>
    intro i h
    unfold lastNonZeroIdxGo at h
    cases hg : parts.get? n with
    | none => rw [hg] at h; simp at h
    | some p =>
      rw [hg] at h
      cases hz : zeroRow p with
      | none => simp [hz] at h
      | some b =>
        cases b with
        | true =>
          simp only [hz] at h
          obtain ⟨h1, h2, h3⟩ := ih i h
          refine ⟨by omega, h2, ?_⟩
          intro j hij hjn
          by_cases hjeq : j = n
          · subst hjeq
            exact ⟨p, hg, hz⟩
          · exact h3 j hij (by omega)
        | false =>
          simp only [hz] at h
          obtain rfl : n = i := by
            injection h with h'
            injection h' with h''
          exact ⟨by omega, ⟨p, hg, hz⟩, by intro j h1 h2; omega⟩

/-! ## Claim theorems: the partition grower -/

/-- **C1.** For the partition resizer's Resize on a disk of `D`
sectors whose selected (last real) partition has `start = st` and
`size = sz`, so its end is `E = st + sz`, with reserve `R = 2048`
sectors: the size attribute is rewritten — followed by the table
write and the kernel ioctl, i.e. the outcome is `resized` — iff
`D − E > R`; when it is rewritten the new end `st + size2` equals
exactly `D − R`; and when `D − E ≤ R` the Resize returns success with
no change (`noChange`: no table write, no ioctl). -/
theorem C1_end_reserve (blk : Option (List Char)) (pt : partitionTable)
    (isGPT : Bool) (i : Nat) (part : sfdiskLine) (D st sz : Int)
    (hlab : labelToIsGPT blk (pt.Meta ("label").toList) = .ok isGPT)
    (hlast : lastNonZeroIdx pt.parts = some (some i))
    (hget : pt.parts.get? i = some part)
    (htype : typeGate isGPT part.TypeAttr = none)
    (hst : part.Start = some st) (hsz : part.Size = some sz) :
    ((∃ pt2 a b p, partitionResize false blk (some D) pt = .resized pt2 a b p)
        ↔ 2048 < D - (st + sz)) ∧
    (D - (st + sz) ≤ 2048 →
      partitionResize false blk (some D) pt = .noChange) ∧
    (2048 < D - (st + sz) →
      ∃ part2,
        part.SetSize (sz + (D - (st + sz) - 2048)) = some part2 ∧
        partitionResize false blk (some D) pt =
          .resized (partitionTable.mk
              ((pt.RemoveMeta ("last-lba").toList).meta)
              (pt.parts.set i part2))
            (st * 512) ((sz + (D - (st + sz) - 2048)) * 512) part.pno ∧
        part2.Size = some (D - 2048 - st) ∧
        part2.Start = some st ∧
        st + (D - 2048 - st) = D - 2048) := by
  have hred := partitionResize_eq_growPart false blk pt isGPT i part D st sz
    hlab hlast hget htype hst hsz
  by_cases hcase : D - (st + sz) ≤ 2048
  · have hnc := growPart_noChange false pt i part D st sz hcase
    refine ⟨?_, fun _ => by rw [hred, hnc], fun hgt => by omega⟩
    constructor
    · intro ⟨pt2, a, b, p, hres⟩
      rw [hred, hnc] at hres
      exact absurd hres (by simp)
    · intro hgt
      omega
  · have hgt : 2048 < D - (st + sz) := by omega
    obtain ⟨part2, hset, hst2, hsz2, hpno2, hdev2, heq⟩ :=
      growPart_grow pt i part D st sz hst hsz hgt
    refine ⟨⟨fun _ => hgt, fun _ => ?_⟩, fun hle => by omega, fun _ => ?_⟩
    · exact ⟨_, _, _, _, by rw [hred, heq]⟩
    · refine ⟨part2, hset, by rw [hred, heq], ?_, hst2, by omega⟩
      rw [hsz2]
      congr 1
      omega

/-- **C1 witness.** The MBR sample table: with 8 MiB of free tail the
partition is grown to end exactly 2048 sectors before the disk end;
with exactly 2048 sectors of tail nothing happens. -/
theorem C1_end_reserve_witness :
    partitionResize false none (some 501760) wtTableDos = .noChange ∧
    (∃ pt2 a b p, partitionResize false none (some 509952) wtTableDos
      = .resized pt2 a b p) := by
  constructor
  · exact (C1_end_reserve none wtTableDos false 0 wtRowDos 501760 2048 497664
      (by decide) (by decide) (by decide) (by decide) (by decide)
      (by decide)).2.1 (by decide)
  · exact ((C1_end_reserve none wtTableDos false 0 wtRowDos 509952 2048 497664
      (by decide) (by decide) (by decide) (by decide) (by decide)
      (by decide)).1).mpr (by decide)

/-- **C7.** The partition resizer selects the last non-zero partition
row — when the selection yields index `i`, row `i` is a non-zero row
(its type, start and size are not all zero/"0") and every
higher-indexed row is a zero row — and the operation fails with an
unknown-partition-type error unless that row's type is, for a gpt
label, one of the three known GUIDs, or, for a dos label, exactly
`83`: the gate passes iff the type is allowed, and when it rejects,
`Resize` returns the `unknownGPTType` / `unknownMBRType` error. -/
theorem C7_last_nonzero_and_type_gate (blk : Option (List Char))
    (pt : partitionTable) (isGPT : Bool) (i : Nat) (part : sfdiskLine)
    (hlab : labelToIsGPT blk (pt.Meta ("label").toList) = .ok isGPT)
    (hlast : lastNonZeroIdx pt.parts = some (some i))
    (hget : pt.parts.get? i = some part) :
    (i < pt.parts.length ∧ zeroRow part = some false ∧
      (∀ j, i < j → j < pt.parts.length →
        ∃ q, pt.parts.get? j = some q ∧ zeroRow q = some true)) ∧
    (typeGate true part.TypeAttr = none ↔
      (part.TypeAttr = lvmGPTTypeID ∨ part.TypeAttr = rootx8664GPTTypeID ∨
        part.TypeAttr = linuxGPTTypeID)) ∧
    (typeGate false part.TypeAttr = none ↔ part.TypeAttr = ("83").toList) ∧
    (∀ e, typeGate isGPT part.TypeAttr = some e →
      (∀ dsz, partitionResize false blk dsz pt = .failure e) ∧
      e = (if isGPT then PartErr.unknownGPTType part.TypeAttr
        else PartErr.unknownMBRType part.TypeAttr)) := by
  refine ⟨?_, ?_, ?_, ?_⟩
  · obtain ⟨h1, ⟨p, hp, hz⟩, h3⟩ :=
      lastNonZeroIdxGo_sound pt.parts pt.parts.length i hlast
    rw [hget] at hp
    injection hp with hp
    subst hp
    exact ⟨h1, hz, h3⟩
  · unfold typeGate
    rw [if_pos rfl]
    constructor
    · intro h
      by_cases hc : part.TypeAttr = lvmGPTTypeID ∨
          part.TypeAttr = rootx8664GPTTypeID ∨ part.TypeAttr = linuxGPTTypeID
      · exact hc
      · rw [if_neg hc] at h
        exact Option.noConfusion h
    · intro hc
      rw [if_pos hc]
  · unfold typeGate
    rw [if_neg (by simp)]
    constructor
    · intro h
      by_cases hc : part.TypeAttr = ("83").toList
      · exact hc
      · rw [if_neg hc] at h
        exact Option.noConfusion h
    · intro hc
      rw [if_pos hc]
  · intro e he
    refine ⟨fun dsz => partitionResize_gateFail false blk dsz pt isGPT i part e
      hlab hlast hget he, ?_⟩
    unfold typeGate at he
    cases isGPT with
    | true =>
      rw [if_pos rfl] at he
      by_cases hc : part.TypeAttr = lvmGPTTypeID ∨
          part.TypeAttr = rootx8664GPTTypeID ∨ part.TypeAttr = linuxGPTTypeID
      · rw [if_pos hc] at he
        exact Option.noConfusion he
      · rw [if_neg hc] at he
        injection he with he
        rw [← he]
        rfl
    | false =>
      rw [if_neg (by simp)] at he
      by_cases hc : part.TypeAttr = ("83").toList
      · rw [if_pos hc] at he
        exact Option.noConfusion he
      · rw [if_neg hc] at he
        injection he with he
        rw [← he]
        rfl

/-- **C7 witness.** On the MBR sample (type `83`): selection picks
the single row and the dos gate accepts `83`; the gpt gate would
reject it. -/
theorem C7_witness :
    zeroRow wtRowDos = some false ∧
    (typeGate false wtRowDos.TypeAttr = none ↔
      wtRowDos.TypeAttr = ("83").toList) := by
  constructor
  · exact ((C7_last_nonzero_and_type_gate none wtTableDos false 0 wtRowDos
      (by decide) (by decide) (by decide)).1).2.1
  · exact (C7_last_nonzero_and_type_gate none wtTableDos false 0 wtRowDos
      (by decide) (by decide) (by decide)).2.2.1

/-- **C8.** Monotone growth of the partition layer: under the gates,
a successful partition resize either leaves the table untouched
(`noChange`, when the free tail is at most the reserve) or replaces
the last real partition's size by
`old size + (remain − 2048)` where `remain > 2048` — a strictly
positive extension, so the new size is strictly larger than the
old. -/
theorem C8_monotone_growth (blk : Option (List Char)) (pt : partitionTable)
    (isGPT : Bool) (i : Nat) (part : sfdiskLine) (D st sz : Int)
    (hlab : labelToIsGPT blk (pt.Meta ("label").toList) = .ok isGPT)
    (hlast : lastNonZeroIdx pt.parts = some (some i))
    (hget : pt.parts.get? i = some part)
    (htype : typeGate isGPT part.TypeAttr = none)
    (hst : part.Start = some st) (hsz : part.Size = some sz) :
    (D - (st + sz) ≤ 2048 →
      partitionResize false blk (some D) pt = .noChange) ∧
    (2048 < D - (st + sz) →
      ∃ part2 sz2,
        part.SetSize (sz + (D - (st + sz) - 2048)) = some part2 ∧
        partitionResize false blk (some D) pt =
          .resized (partitionTable.mk
              ((pt.RemoveMeta ("last-lba").toList).meta)
              (pt.parts.set i part2))
            (st * 512) (sz2 * 512) part.pno ∧
        part2.Size = some sz2 ∧
        sz2 = sz + (D - (st + sz) - 2048) ∧
        sz < sz2) := by
  have hred := partitionResize_eq_growPart false blk pt isGPT i part D st sz
    hlab hlast hget htype hst hsz
  constructor
  · intro hcase
    rw [hred, growPart_noChange false pt i part D st sz hcase]
  · intro hgt
    obtain ⟨part2, hset, hst2, hsz2, hpno2, hdev2, heq⟩ :=
      growPart_grow pt i part D st sz hst hsz hgt
    exact ⟨part2, sz + (D - (st + sz) - 2048), hset, by rw [hred, heq],
      hsz2, rfl, by omega⟩

/-- **C8 witness.** The MBR sample grown by 8 MiB: the new size
505856 strictly exceeds the old size 497664. -/
theorem C8_monotone_growth_witness :
    ∃ part2 sz2,
      wtRowDos.SetSize (497664 + (509952 - (2048 + 497664) - 2048))
          = some part2 ∧
      partitionResize false none (some 509952) wtTableDos =
        .resized (partitionTable.mk
            ((wtTableDos.RemoveMeta ("last-lba").toList).meta)
            (wtTableDos.parts.set 0 part2))
          (2048 * 512) (sz2 * 512) wtRowDos.pno ∧
      part2.Size = some sz2 ∧
      sz2 = 497664 + (509952 - (2048 + 497664) - 2048) ∧
      497664 < sz2 :=
  (C8_monotone_growth none wtTableDos false 0 wtRowDos 509952 2048 497664
    (by decide) (by decide) (by decide) (by decide) (by decide)
    (by decide)).2 (by decide)

/-! ## Claim theorems: disk-device derivation -/

/-- **C2.** The behaviour of `diskDev` on the claim's inputs:
`/dev/sda3 → /dev/sda`, `/dev/nvme0n1p7 → /dev/nvme0n1`,
`/dev/mmcblk0p2 → /dev/mmcblk0`, and unmatched paths fail — but,
contrary to the claim, `/dev/vd*` is **not** supported:
`diskDev "/dev/vda1"` hits the `panic("Unsupport device …")` exit
(modelled as `none`) instead of returning `/dev/vda`, even though
`fsResizer.DepResizer` (fs.go) deliberately routes `/dev/vd*` devices
into the partition resizer. -/
theorem C2_diskDev_behaviour :
    diskDev ("/dev/sda3").toList = some ("/dev/sda").toList ∧
    diskDev ("/dev/nvme0n1p7").toList = some ("/dev/nvme0n1").toList ∧
    diskDev ("/dev/mmcblk0p2").toList = some ("/dev/mmcblk0").toList ∧
    diskDev ("/dev/vda1").toList = none ∧
    diskDev ("/dev/loop0").toList = none ∧
    diskDev ("/tmp/vda1").toList = none := by
  refine ⟨?_, ?_, ?_, ?_, ?_, ?_⟩ <;> decide

/-! ## Claim theorems: the resize engine -/

/-- **C3.** The engine performs exactly the specified steps in order:
a failing first `State()` is returned unwrapped with no changes; a
failing `DepResizer()` is returned after the state capture; a
non-null dependency is resized first and its change list is taken
over, its error short-circuiting; a failing `Resize()` returns with
the changes accumulated so far; a failing second `State()` is wrapped
as `error after successful resize of …`; the change line
`<r>: before: <s0>, after: <s1>` is appended iff `s0 ≠ s1`; and for a
chain F → L → P → Pi the resize calls happen in the order
Pi, P, L, F, each one surrounded by the two state captures of its
layer. -/
theorem C3_engine_order :
    (∀ (l e : String) (dep : Except String (Option Resizer))
        (res : Except String Unit) (s1 : Except String String),
      Resize (.mk l (.error e) dep res s1) = ([.stateCall l], [], some e)) ∧
    (∀ (l s0v e : String) (res : Except String Unit)
        (s1 : Except String String),
      Resize (.mk l (.ok s0v) (.error e) res s1)
        = ([.stateCall l, .depCall l], [], some e)) ∧
    (∀ (l s0v e : String) (d : Resizer) (res : Except String Unit)
        (s1 : Except String String) (tr : List REvent) (cs : List String),
      Resize d = (tr, cs, some e) →
      Resize (.mk l (.ok s0v) (.ok (some d)) res s1)
        = ([.stateCall l, .depCall l] ++ tr, cs, some e)) ∧
    (∀ (l s0v e : String) (d : Resizer) (s1 : Except String String)
        (tr : List REvent) (cs : List String),
      Resize d = (tr, cs, none) →
      Resize (.mk l (.ok s0v) (.ok (some d)) (.error e) s1)
        = ([.stateCall l, .depCall l] ++ tr ++ [.resizeCall l], cs, some e)) ∧
    (∀ (l s0v e : String) (d : Resizer) (tr : List REvent) (cs : List String),
      Resize d = (tr, cs, none) →
      Resize (.mk l (.ok s0v) (.ok (some d)) (.ok ()) (.error e))
        = ([.stateCall l, .depCall l] ++ tr ++ [.resizeCall l, .stateCall l],
          cs, some ("error after successful resize of " ++ l ++ ": " ++ e))) ∧
    (∀ (l s0v s1v : String) (d : Resizer) (tr : List REvent)
        (cs : List String),
      Resize d = (tr, cs, none) →
      Resize (.mk l (.ok s0v) (.ok (some d)) (.ok ()) (.ok s1v))
        = ([.stateCall l, .depCall l] ++ tr ++ [.resizeCall l, .stateCall l],
          cs ++ (if s0v = s1v then []
            else [l ++ ": before: " ++ s0v ++ ", after: " ++ s1v]),
          none)) ∧
    (∀ (l s0v s1v : String),
      Resize (.mk l (.ok s0v) (.ok none) (.ok ()) (.ok s1v))
        = ([.stateCall l, .depCall l, .resizeCall l, .stateCall l],
          (if s0v = s1v then []
            else [l ++ ": before: " ++ s0v ++ ", after: " ++ s1v]),
          none)) ∧
    (Resize (.mk "F" (.ok "a") (.ok (some
        (.mk "L" (.ok "a") (.ok (some
          (.mk "P" (.ok "a") (.ok (some
            (.mk "Pi" (.ok "a") (.ok none) (.ok ()) (.ok "b"))))
            (.ok ()) (.ok "b"))))
          (.ok ()) (.ok "b"))))
        (.ok ()) (.ok "b"))
      = ([.stateCall "F", .depCall "F",
          .stateCall "L", .depCall "L",
          .stateCall "P", .depCall "P",
          .stateCall "Pi", .depCall "Pi", .resizeCall "Pi", .stateCall "Pi",
          .resizeCall "P", .stateCall "P",
          .resizeCall "L", .stateCall "L",
          .resizeCall "F", .stateCall "F"],
        ["Pi: before: a, after: b", "P: before: a, after: b",
          "L: before: a, after: b", "F: before: a, after: b"], none)) := by
  refine ⟨?_, ?_, ?_, ?_, ?_, ?_, ?_, ?_⟩
  · intro l e dep res s1
    rfl
  · intro l s0v e res s1
    rfl
  · intro l s0v e d res s1 tr cs h
    simp [Resize, h]
  · intro l s0v e d s1 tr cs h
    simp [Resize, h]
  · intro l s0v e d tr cs h
    simp [Resize, h]
  · intro l s0v s1v d tr cs h
    by_cases hss : s0v = s1v <;> simp [Resize, h, hss]
  · intro l s0v s1v
    by_cases hss : s0v = s1v <;> simp [Resize, hss]
  · decide

/-- **C3 witness.** The hypothesis-bearing steps applied at a
concrete dependency: a failing dependency short-circuits the parent,
and a succeeding dependency hands its change list over. -/
theorem C3_engine_order_witness :
    Resize (.mk "F" (.ok "a") (.ok (some
        (.mk "D" (.error "boom") (.ok none) (.ok ()) (.ok "x"))))
        (.ok ()) (.ok "b"))
      = ([.stateCall "F", .depCall "F", .stateCall "D"], [], some "boom") ∧
    Resize (.mk "F" (.ok "a") (.ok (some
        (.mk "D" (.ok "u") (.ok none) (.ok ()) (.ok "v"))))
        (.error "bad") (.ok "b"))
      = ([.stateCall "F", .depCall "F",
          .stateCall "D", .depCall "D", .resizeCall "D", .stateCall "D",
          .resizeCall "F"],
        ["D: before: u, after: v"], some "bad") := by
  constructor
  · exact C3_engine_order.2.2.1 "F" "a" "boom"
      (.mk "D" (.error "boom") (.ok none) (.ok ()) (.ok "x"))
      (.ok ()) (.ok "b") [.stateCall "D"] [] (by decide)
  · exact C3_engine_order.2.2.2.1 "F" "a" "bad"
      (.mk "D" (.ok "u") (.ok none) (.ok ()) (.ok "v"))
      (.ok "b")
      [.stateCall "D", .depCall "D", .resizeCall "D", .stateCall "D"]
      ["D: before: u, after: v"] (by decide)

/-! ## Claim theorems: LVM growers -/

/-- **C5.** `lvResizer.Resize` succeeds exactly when `lvextend` exits
zero or its captured stderr contains the substring
`matches existing size`; every other failure is returned as an error
carrying the captured stderr (empty when the failure produced none);
and the other resize seams (`pvresize`, the filesystem grow command
outside dry-run) swallow no failure at all. -/
theorem C5_lvextend_error_policy :
    (∀ (dev : List Char) (r : CmdResult), lvResize dev r = none ↔
      ((∃ out, r = .ok out) ∨
        (∃ st, r = .exitErr st ∧
          containsSub st ("matches existing size").toList = true))) ∧
    (∀ (dev st : List Char),
      containsSub st ("matches existing size").toList = false →
      lvResize dev (.exitErr st) = some (.lvextendFailed dev st)) ∧
    (∀ (dev : List Char), lvResize dev .startErr
      = some (.lvextendFailed dev [])) ∧
    (∀ (dev : List Char) (r : CmdResult),
      pvResize dev r = none ↔ ∃ out, r = .ok out) ∧
    (∀ (dev : List Char) (r : CmdResult),
      fsResize false dev r = none ↔ ∃ out, r = .ok out) := by
  refine ⟨?_, ?_, ?_, ?_, ?_⟩
  · intro dev r
    cases r with
    | ok out => simp [lvResize]
    | exitErr st =>
      by_cases h : containsSub st ("matches existing size").toList = true <;>
        simp [lvResize, h]
    | startErr => simp [lvResize]
  · intro dev st h
    show (if containsSub st ("matches existing size").toList = true then none
      else some (LvResizeErr.lvextendFailed dev st))
        = some (LvResizeErr.lvextendFailed dev st)
    rw [if_neg (by intro hc; rw [h] at hc; exact Bool.false_ne_true hc)]
  · intro dev
    rfl
  · intro dev r
    cases r <;> simp [pvResize]
  · intro dev r
    cases r <;> simp [fsResize]

/-- **C5 witness.** A concrete `lvextend` failure whose stderr
mentions `matches existing size` is swallowed; one without it is
reported with the stderr. -/
theorem C5_lvextend_error_policy_witness :
    lvResize ("/dev/mapper/debvg-root").toList
        (.exitErr ("  New size (100 extents) matches existing size (100 extents)").toList)
      = none ∧
    lvResize ("/dev/mapper/debvg-root").toList
        (.exitErr ("  Insufficient free space").toList)
      = some (.lvextendFailed ("/dev/mapper/debvg-root").toList
          ("  Insufficient free space").toList) := by
  constructor
  · exact ((C5_lvextend_error_policy.1 ("/dev/mapper/debvg-root").toList
      (.exitErr ("  New size (100 extents) matches existing size (100 extents)").toList)).mpr
      (Or.inr ⟨_, rfl, by decide⟩))
  · exact C5_lvextend_error_policy.2.1 ("/dev/mapper/debvg-root").toList
      ("  Insufficient free space").toList (by decide)

/-- **C9.** A partition row's `Type()` lookup returns the `type`
attribute when present and otherwise falls back to the `Id`
attribute; consequently the dos type gate also accepts a row carrying
`Id=83` instead of `type=83`. -/
theorem C9_type_id_fallback :
    (∀ sl : sfdiskLine, sl.Attr ("type").toList ≠ [] →
      sl.TypeAttr = sl.Attr ("type").toList) ∧
    (∀ sl : sfdiskLine, sl.Attr ("type").toList = [] →
      sl.TypeAttr = sl.Attr ("Id").toList) ∧
    wtRowId.Attr ("type").toList = [] ∧
    wtRowId.TypeAttr = ("83").toList ∧
    typeGate false wtRowId.TypeAttr = none := by
  refine ⟨?_, ?_, by decide, by decide, by decide⟩
  · intro sl h
    unfold sfdiskLine.TypeAttr
    simp only [h]
    rw [if_pos h]
  · intro sl h
    unfold sfdiskLine.TypeAttr
    simp only [h]
    rfl

/-- **C9 witness.** The fallback applied to the two fixture rows: the
`type=83` row uses `type`, the `Id=83` row falls back to `Id`. -/
theorem C9_type_id_fallback_witness :
    wtRowDos.TypeAttr = wtRowDos.Attr ("type").toList ∧
    wtRowId.TypeAttr = wtRowId.Attr ("Id").toList := by
  constructor
  · exact C9_type_id_fallback.1 wtRowDos (by decide)
  · exact C9_type_id_fallback.2.1 wtRowId (by decide)

/-- **C10.** When no `pvdisplay -c` line has its second
colon-separated field equal to the LV's volume group,
`lvResizer.DepResizer` returns no dependency and no error
(`ok none`), and the engine then resizes only that layer (a resizer
whose dependency lookup returns `(nil, nil)` produces a trace with no
other resize call), rather than failing. -/
theorem C10_lv_dep_silent_none :
    (∀ (vg : List Char) (lines : List (List Char)),
      (∀ l ∈ lines, pvLineMatches vg l = false) →
      lvDepScan vg lines = none ∧
      lvDepResizer (.ok vg) (.ok lines) = .ok none) ∧
    (∀ (l s0v s1v : String),
      Resize (.mk l (.ok s0v) (.ok none) (.ok ()) (.ok s1v))
        = ([.stateCall l, .depCall l, .resizeCall l, .stateCall l],
          (if s0v = s1v then []
            else [l ++ ": before: " ++ s0v ++ ", after: " ++ s1v]),
          none)) := by
  constructor
  · intro vg lines h
    have hscan : lvDepScan vg lines = none := by
      induction lines with
      | nil => rfl
      | cons l rest ih =>
        have hl := h l (by simp)
        unfold lvDepScan
        unfold pvLineMatches at hl
        cases hsp : splitChar ':' (trimSpace l) with
        | nil => exact ih (fun x hx => h x (by simp [hx]))
        | cons f0 fs =>
          cases fs with
          | nil =>
            exact ih (fun x hx => h x (by simp [hx]))
          | cons f1 fs' =>
            rw [hsp] at hl
            simp only [decide_eq_false_iff_not] at hl
            show (if f1 = vg then some f0 else lvDepScan vg rest) = none
            rw [if_neg hl]
            exact ih (fun x hx => h x (by simp [hx]))
    exact ⟨hscan, by simp [lvDepResizer, hscan]⟩
  · intro l s0v s1v
    by_cases hss : s0v = s1v <;> simp [Resize, hss]

/-- **C10 witness.** A `pvdisplay -c` output whose rows all belong to
the volume group `othervg`: the LV in group `debvg` gets dependency
`ok none`. -/
theorem C10_lv_dep_silent_none_witness :
    lvDepResizer (.ok ("debvg").toList)
        (.ok [("  /dev/sda3:othervg:1024:-1:0:0:0:256:4:1:3:x").toList,
              ("  shortline").toList])
      = .ok none :=
  ((C10_lv_dep_silent_none.1 ("debvg").toList
      [("  /dev/sda3:othervg:1024:-1:0:0:0:256:4:1:3:x").toList,
        ("  shortline").toList] (by decide))).2

/-! ## Claim theorems: mount resolver -/

theorem findDevRoot_spec (entries : List DevEntry) (d : List Char)
    (h : findDevRoot entries = .ok d) :
    ∃ e, e ∈ entries ∧ e.isBlock = true ∧ e.name ≠ ("root").toList ∧
      d = ("/dev/").toList ++ e.name ∧
      ∃ r, r ∈ entries ∧ r.isBlock = true ∧ r.name = ("root").toList ∧
        r.rdev = e.rdev := by
  unfold findDevRoot at h
  cases hroot : ((devBlockPairs entries).find?
      (fun p => p.1 = ("root").toList)).map Prod.snd with
  | none => rw [hroot] at h; simp at h
  | some want =>
    rw [hroot] at h
    replace h : (match (devBlockPairs entries).find?
        (fun p => decide (p.2 = want ∧ p.1 ≠ ("root").toList)) with
      | some p => Except.ok (("/dev/").toList ++ p.1)
      | none => (Except.error FsErr.noDevRootMatch : Except FsErr (List Char)))
        = Except.ok d := h
    cases hfind : (devBlockPairs entries).find?
        (fun p => decide (p.2 = want ∧ p.1 ≠ ("root").toList)) with
    | none => rw [hfind] at h; simp at h
    | some p =>
      rw [hfind] at h
      injection h with h
      subst h
      have hmem := List.mem_of_find?_eq_some hfind
      have hpred := List.find?_some hfind
      simp only [decide_eq_true_eq] at hpred
      obtain ⟨e, hem, hbe, hfe⟩ :
          ∃ e ∈ entries, e.isBlock = true ∧ (e.name, e.rdev) = p := by
        simpa [devBlockPairs] using hmem
      obtain ⟨prt, hrt1, hrt2⟩ : ∃ prt, (devBlockPairs entries).find?
          (fun p => p.1 = ("root").toList) = some prt ∧ prt.2 = want := by
        cases hr : (devBlockPairs entries).find?
            (fun p => p.1 = ("root").toList) with
        | none => rw [hr] at hroot; exact Option.noConfusion hroot
        | some q =>
          rw [hr] at hroot
          injection hroot with hroot
          exact ⟨q, rfl, hroot⟩
      have hrtmem := List.mem_of_find?_eq_some hrt1
      have hrtpred := List.find?_some hrt1
      simp only [decide_eq_true_eq] at hrtpred
      obtain ⟨r, hrm, hbr, hfr⟩ :
          ∃ r ∈ entries, r.isBlock = true ∧ (r.name, r.rdev) = prt := by
        simpa [devBlockPairs] using hrtmem
      have hename : e.name = p.1 := by rw [← hfe]
      have herdev : e.rdev = p.2 := by rw [← hfe]
      have hrname : r.name = prt.1 := by rw [← hfr]
      have hrrdev : r.rdev = prt.2 := by rw [← hfr]
      refine ⟨e, hem, hbe, ?_, ?_, r, hrm, hbr, ?_, ?_⟩
      · rw [hename]; exact hpred.2
      · rw [hename]
      · rw [hrname]; exact hrtpred
      · rw [hrrdev, herdev, hrt2, hpred.1]

theorem statFS_cons (mnt : List Char) (entries : List DevEntry)
    (l : List Char) (rest : List (List Char)) :
    statFS mnt entries (l :: rest)
      = match fieldsGo l with
        | a :: b :: c :: _ =>
          if a = ("rootfs").toList then statFS mnt entries rest
          else if b = mnt then
            (match (if a = ("/dev/root").toList then findDevRoot entries
              else .ok a : Except FsErr (List Char)) with
              | .error e => .error e
              | .ok dev => .ok (dev, c))
          else statFS mnt entries rest
        | _ => statFS mnt entries rest := rfl

theorem statFS_skip (mnt : List Char) (entries : List DevEntry)
    (l : List Char) (rest : List (List Char))
    (h : mountLineMatch mnt l = false) :
    statFS mnt entries (l :: rest) = statFS mnt entries rest := by
  rw [statFS_cons]
  unfold mountLineMatch at h
  cases hf : fieldsGo l with
  | nil => rfl
  | cons a fs =>
    cases fs with
    | nil => rfl
    | cons b fs2 =>
      cases fs2 with
      | nil => rfl
      | cons c fs3 =>
        rw [hf] at h
        simp only [Bool.and_eq_false_iff, Bool.not_eq_false',
          decide_eq_true_eq, decide_eq_false_iff_not] at h
        show (if a = ("rootfs").toList then statFS mnt entries rest
          else if b = mnt then
            (match (if a = ("/dev/root").toList then findDevRoot entries
              else .ok a : Except FsErr (List Char)) with
              | .error e => .error e
              | .ok dev => .ok (dev, c))
          else statFS mnt entries rest) = statFS mnt entries rest
        by_cases hr : a = ("rootfs").toList
        · rw [if_pos hr]
        · rcases h with h | h
          · exact absurd h hr
          · rw [if_neg hr, if_neg h]

theorem statFS_hit (mnt : List Char) (entries : List DevEntry)
    (l : List Char) (rest : List (List Char)) (a b c : List Char)
    (fs : List (List Char))
    (hf : fieldsGo l = a :: b :: c :: fs)
    (hroot : a ≠ ("rootfs").toList) (hb : b = mnt) :
    statFS mnt entries (l :: rest)
      = match (if a = ("/dev/root").toList then findDevRoot entries
          else .ok a : Except FsErr (List Char)) with
        | .error e => .error e
        | .ok dev => .ok (dev, c) := by
  rw [statFS_cons, hf]
  show (if a = ("rootfs").toList then statFS mnt entries rest
    else if b = mnt then
      (match (if a = ("/dev/root").toList then findDevRoot entries
        else .ok a : Except FsErr (List Char)) with
        | .error e => .error e
        | .ok dev => .ok (dev, c))
    else statFS mnt entries rest) = _
  rw [if_neg hroot, if_pos hb]

theorem statFS_no_match (mnt : List Char) (entries : List DevEntry) :
    ∀ lines : List (List Char),
    (∀ l ∈ lines, mountLineMatch mnt l = false) →
    statFS mnt entries lines = .error .mountNotFound := by
  intro lines
  induction lines with
  | nil => intro _; rfl
  | cons l rest ih =>
    intro h
    rw [statFS_skip mnt entries l rest (h l (by simp))]
    exact ih (fun x hx => h x (by simp [hx]))

theorem statFS_never_dev_root (mnt : List Char) (entries : List DevEntry) :
    ∀ (lines : List (List Char)) (dev ft : List Char),
    statFS mnt entries lines = .ok (dev, ft) →
    dev ≠ ("/dev/root").toList := by
  intro lines
  induction lines with
  | nil => intro dev ft h; exact absurd h (by simp [statFS])
  | cons l rest ih =>
    intro dev ft h
    rw [statFS_cons] at h
    cases hf : fieldsGo l with
    | nil => rw [hf] at h; exact ih dev ft h
    | cons a fs =>
      cases fs with
      | nil => rw [hf] at h; exact ih dev ft h
      | cons b fs2 =>
        cases fs2 with
        | nil => rw [hf] at h; exact ih dev ft h
        | cons c fs3 =>
          rw [hf] at h
          replace h : (if a = ("rootfs").toList then statFS mnt entries rest
            else if b = mnt then
              (match (if a = ("/dev/root").toList then findDevRoot entries
                else .ok a : Except FsErr (List Char)) with
                | .error e => .error e
                | .ok dv => .ok (dv, c))
            else statFS mnt entries rest) = .ok (dev, ft) := h
          by_cases hr : a = ("rootfs").toList
          · rw [if_pos hr] at h
            exact ih dev ft h
          · rw [if_neg hr] at h
            by_cases hb : b = mnt
            · rw [if_pos hb] at h
              by_cases hdr : a = ("/dev/root").toList
              · rw [if_pos hdr] at h
                cases hfd : findDevRoot entries with
                | error e => rw [hfd] at h; simp at h
                | ok d =>
                  rw [hfd] at h
                  injection h with h
                  obtain ⟨e2, _, _, hne, hd, _⟩ :=
                    findDevRoot_spec entries d hfd
                  have hdev : dev = d := ((Prod.mk.injEq _ _ _ _ |>.mp h).1).symm
                  subst hdev
                  rw [hd]
                  intro hcontra
                  apply hne
                  have : ("/dev/").toList ++ e2.name
                      = ("/dev/").toList ++ ("root").toList := hcontra
                  exact List.append_cancel_left this
              · rw [if_neg hdr] at h
                injection h with h
                have hdev : dev = a := ((Prod.mk.injEq _ _ _ _ |>.mp h).1).symm
                rw [hdev]
                exact hdr
            · rw [if_neg hb] at h
              exact ih dev ft h

/-- **C6.** The mount resolver scans `/proc/mounts` in order: an
empty remainder fails with the mount-not-found error, lines with
fewer than 3 fields or first field `rootfs` are skipped, and the
first line whose second field equals the mount point yields its
device path and filesystem type; when nothing matches the resolver
fails; a matched `/dev/root` device is replaced by `/dev/<name>` for
a different block-device entry of `/dev` carrying the same device
number as the entry named `root`, so an `ok` result never carries
`/dev/root`. -/
theorem C6_mount_resolver :
    (∀ (mnt : List Char) (entries : List DevEntry),
      statFS mnt entries [] = .error .mountNotFound) ∧
    (∀ (mnt : List Char) (entries : List DevEntry) (l : List Char)
        (rest : List (List Char)), mountLineMatch mnt l = false →
      statFS mnt entries (l :: rest) = statFS mnt entries rest) ∧
    (∀ (mnt : List Char) (entries : List DevEntry) (lines : List (List Char)),
      (∀ l ∈ lines, mountLineMatch mnt l = false) →
      statFS mnt entries lines = .error .mountNotFound) ∧
    (∀ (mnt : List Char) (entries : List DevEntry) (l : List Char)
        (rest : List (List Char)) (a b c : List Char) (fs : List (List Char)),
      fieldsGo l = a :: b :: c :: fs → a ≠ ("rootfs").toList → b = mnt →
      statFS mnt entries (l :: rest)
        = match (if a = ("/dev/root").toList then findDevRoot entries
            else .ok a : Except FsErr (List Char)) with
          | .error e => .error e
          | .ok dev => .ok (dev, c)) ∧
    (∀ (entries : List DevEntry) (d : List Char), findDevRoot entries = .ok d →
      ∃ e, e ∈ entries ∧ e.isBlock = true ∧ e.name ≠ ("root").toList ∧
        d = ("/dev/").toList ++ e.name ∧
        ∃ r, r ∈ entries ∧ r.isBlock = true ∧ r.name = ("root").toList ∧
          r.rdev = e.rdev) ∧
    (∀ (mnt : List Char) (entries : List DevEntry) (lines : List (List Char))
        (dev ft : List Char),
      statFS mnt entries lines = .ok (dev, ft) →
      dev ≠ ("/dev/root").toList) :=
  ⟨fun _ _ => rfl, statFS_skip, statFS_no_match, statFS_hit, findDevRoot_spec,
    statFS_never_dev_root⟩

/-- **C6 witness.** A two-line `/proc/mounts` whose first line is a
`rootfs` entry and whose second is `/dev/root / ext4 rw`; `/dev`
holds block entries `root` and `nvme0n1p2` with the same device
number: the resolver returns `/dev/nvme0n1p2` with type `ext4`. -/
theorem C6_mount_resolver_witness :
    statFS ("/").toList
        [⟨("root").toList, true, 259⟩, ⟨("nvme0n1p2").toList, true, 259⟩]
        [("rootfs / rootfs rw 0 0").toList,
          ("/dev/root / ext4 rw,relatime 0 0").toList]
      = .ok (("/dev/nvme0n1p2").toList, ("ext4").toList) ∧
    (("/dev/nvme0n1p2").toList : List Char) ≠ ("/dev/root").toList := by
  constructor
  · have hskip := C6_mount_resolver.2.1 ("/").toList
      [⟨("root").toList, true, 259⟩, ⟨("nvme0n1p2").toList, true, 259⟩]
      ("rootfs / rootfs rw 0 0").toList
      [("/dev/root / ext4 rw,relatime 0 0").toList] (by decide)
    rw [hskip]
    have hhit := C6_mount_resolver.2.2.2.1 ("/").toList
      [⟨("root").toList, true, 259⟩, ⟨("nvme0n1p2").toList, true, 259⟩]
      ("/dev/root / ext4 rw,relatime 0 0").toList []
      ("/dev/root").toList ("/").toList ("ext4").toList
      [("rw,relatime").toList, ("0").toList, ("0").toList]
      (by decide) (by decide) rfl
    rw [hhit]
    decide
  · intro h
    exact absurd h (by decide)

/-! ## Round-trip machinery: trimming -/

theorem trimL_cons_ws {w : Char} (l : List Char) (h : wsB w = true) :
    trimL (w :: l) = trimL l := by
  simp [trimL, List.dropWhile, h]

theorem trimL_cons_not {c : Char} (l : List Char) (h : wsB c = false) :
    trimL (c :: l) = c :: l := by
  simp [trimL, List.dropWhile, h]

theorem trimR_append (x y : List Char) :
    trimR (x ++ y) = if trimR y = [] then trimR x else x ++ trimR y := by
  unfold trimR
  rw [List.reverse_append, List.dropWhile_append]
  by_cases h : (List.dropWhile wsB y.reverse).isEmpty = true
  · rw [if_pos h]
    have h2 : (y.reverse.dropWhile wsB).reverse = [] := by
      rw [List.isEmpty_iff] at h
      rw [h]
      rfl
    rw [if_pos h2]
  · rw [if_neg h]
    simp only [List.isEmpty_iff] at h
    have h2 : ¬ (y.reverse.dropWhile wsB).reverse = [] := by
      simpa using h
    rw [if_neg h2, List.reverse_append, List.reverse_reverse]

theorem trimR_idem (l : List Char) : trimR (trimR l) = trimR l := by
  unfold trimR
  rw [List.reverse_reverse, List.dropWhile_idempotent]

theorem trimL_idem (l : List Char) : trimL (trimL l) = trimL l :=
  List.dropWhile_idempotent wsB l

theorem headNotWs_dropWhile (l : List Char) :
    headNotWs (l.dropWhile wsB) = true := by
  induction l with
  | nil => rfl
  | cons c rest ih =>
    by_cases h : wsB c = true
    · rw [List.dropWhile_cons_of_pos h]
      exact ih
    · rw [List.dropWhile_cons_of_neg h]
      simp [headNotWs, Bool.eq_false_iff.mpr h]

theorem headNotWs_trimL (l : List Char) : headNotWs (trimL l) = true :=
  headNotWs_dropWhile l

theorem lastNotWs_trimR (l : List Char) : lastNotWs (trimR l) = true := by
  unfold lastNotWs trimR
  rw [List.reverse_reverse]
  exact headNotWs_dropWhile l.reverse

theorem headNotWs_append_left {x : List Char} (y : List Char) (h : x ≠ []) :
    headNotWs (x ++ y) = headNotWs x := by
  cases x with
  | nil => exact absurd rfl h
  | cons c rest => rfl

theorem lastNotWs_append {x y : List Char} (h : y ≠ []) :
    lastNotWs (x ++ y) = lastNotWs y := by
  unfold lastNotWs
  rw [List.reverse_append]
  exact headNotWs_append_left x.reverse (by simpa using h)

theorem lastNotWs_of_suffix {x y : List Char} (h : x <:+ y)
    (hl : lastNotWs y = true) : lastNotWs x = true := by
  obtain ⟨t, rfl⟩ := h
  by_cases hx : x = []
  · subst hx; rfl
  · rw [lastNotWs_append hx] at hl
    exact hl

theorem headNotWs_trimSpace (l : List Char) :
    headNotWs (trimSpace l) = true := headNotWs_trimL (trimR l)

theorem lastNotWs_trimSpace (l : List Char) :
    lastNotWs (trimSpace l) = true := by
  have hsuf : trimSpace l <:+ trimR l := List.dropWhile_suffix wsB
  exact lastNotWs_of_suffix hsuf (lastNotWs_trimR l)

theorem trimL_eq_self {l : List Char} (h : headNotWs l = true) :
    trimL l = l := by
  cases l with
  | nil => rfl
  | cons c rest =>
    simp only [headNotWs, Bool.not_eq_true'] at h
    exact trimL_cons_not rest h

theorem trimR_eq_self {l : List Char} (h : lastNotWs l = true) :
    trimR l = l := by
  unfold trimR
  unfold lastNotWs at h
  rw [show l.reverse.dropWhile wsB = l.reverse from by
    have := trimL_eq_self h
    simpa [trimL] using this]
  exact List.reverse_reverse l

theorem trimSpace_eq_self {l : List Char} (h1 : headNotWs l = true)
    (h2 : lastNotWs l = true) : trimSpace l = l := by
  unfold trimSpace
  rw [trimR_eq_self h2, trimL_eq_self h1]

theorem trimSpace_idem (l : List Char) :
    trimSpace (trimSpace l) = trimSpace l :=
  trimSpace_eq_self (headNotWs_trimSpace l) (lastNotWs_trimSpace l)

theorem trimSpace_trimR (l : List Char) :
    trimSpace (trimR l) = trimSpace l := by
  unfold trimSpace
  rw [trimR_idem]

theorem trimSpace_cons_ws {w : Char} (l : List Char) (h : wsB w = true) :
    trimSpace (w :: l) = trimSpace l := by
  unfold trimSpace
  rw [show (w :: l) = [w] ++ l from rfl, trimR_append]
  by_cases he : trimR l = []
  · rw [if_pos he, he]
    have : trimR [w] = [] := by
      unfold trimR
      simp [List.dropWhile, h]
    rw [this]
  · rw [if_neg he]
    exact trimL_cons_ws (trimR l) h

theorem mem_of_mem_trimSpace {c : Char} {l : List Char}
    (h : c ∈ trimSpace l) : c ∈ l := by
  have h1 : trimSpace l <:+ trimR l := List.dropWhile_suffix wsB
  have h2 : c ∈ trimR l := h1.subset h
  unfold trimR at h2
  rw [List.mem_reverse] at h2
  have h3 : (l.reverse.dropWhile wsB) <:+ l.reverse := List.dropWhile_suffix wsB
  have h4 := h3.subset h2
  rwa [List.mem_reverse] at h4

/-! ## Round-trip machinery: splitting and joining -/

theorem splitChar_ne_nil (c : Char) (l : List Char) : splitChar c l ≠ [] := by
  cases l with
  | nil => simp [splitChar]
  | cons x rest =>
    unfold splitChar
    by_cases h : x = c
    · simp [h]
    · rw [if_neg h]
      cases hs : splitChar c rest with
      | nil => simp
      | cons p ps => simp

theorem splitChar_cons (sep x : Char) (l : List Char) :
    splitChar sep (x :: l)
      = if x = sep then [] :: splitChar sep l
        else match splitChar sep l with
          | p :: ps => (x :: p) :: ps
          | [] => [[x]] := rfl

theorem splitChar_cons_sep (c : Char) (l : List Char) :
    splitChar c (c :: l) = [] :: splitChar c l := by
  rw [splitChar_cons, if_pos rfl]

theorem splitChar_cons_ne {c x : Char} {l : List Char} {p : List Char}
    {ps : List (List Char)} (h : ¬ x = c) (hs : splitChar c l = p :: ps) :
    splitChar c (x :: l) = (x :: p) :: ps := by
  rw [splitChar_cons, if_neg h, hs]

theorem not_mem_splitChar (c : Char) (l : List Char) :
    ∀ p ∈ splitChar c l, c ∉ p := by
  induction l with
  | nil =>
    intro p hp
    simp [splitChar] at hp
    simp [hp]
  | cons x rest ih =>
    intro p hp
    by_cases h : x = c
    · subst h
      rw [splitChar_cons_sep] at hp
      rcases List.mem_cons.mp hp with h1 | h1
      · simp [h1]
      · exact ih p h1
    · obtain ⟨q, qs, hs⟩ : ∃ q qs, splitChar c rest = q :: qs := by
        cases hq : splitChar c rest with
        | nil => exact absurd hq (splitChar_ne_nil c rest)
        | cons q qs => exact ⟨q, qs, rfl⟩
      rw [splitChar_cons_ne h hs] at hp
      rcases List.mem_cons.mp hp with h1 | h1
      · subst h1
        intro hm
        rcases List.mem_cons.mp hm with h2 | h2
        · exact h h2.symm
        · exact ih q (by rw [hs]; simp) h2
      · exact ih p (by rw [hs]; simp [h1])

theorem splitChar_no_sep {c : Char} {l : List Char} (h : c ∉ l) :
    splitChar c l = [l] := by
  induction l with
  | nil => rfl
  | cons x rest ih =>
    have hx : ¬ x = c := fun he => h (by simp [he])
    have hr : c ∉ rest := fun hm => h (by simp [hm])
    rw [splitChar_cons_ne hx (ih hr)]

theorem splitChar_append_sep {c : Char} {a : List Char} (b : List Char)
    (h : c ∉ a) : splitChar c (a ++ c :: b) = a :: splitChar c b := by
  induction a with
  | nil => simpa using splitChar_cons_sep c b
  | cons x a' ih =>
    have hx : ¬ x = c := fun he => h (by simp [he])
    have ha : c ∉ a' := fun hm => h (by simp [hm])
    obtain ⟨q, qs, hs⟩ : ∃ q qs, splitChar c (a' ++ c :: b) = q :: qs := by
      cases hq : splitChar c (a' ++ c :: b) with
      | nil => exact absurd hq (splitChar_ne_nil c _)
      | cons q qs => exact ⟨q, qs, rfl⟩
    rw [ih ha] at hs
    injection hs with h1 h2
    subst h1
    subst h2
    have := splitChar_cons_ne hx (ih ha)
    simpa using this

theorem splitChar_append_last (c : Char) (x : List Char) :
    splitChar c (x ++ [c]) = splitChar c x ++ [[]] := by
  induction x with
  | nil => simp [splitChar]
  | cons y rest ih =>
    by_cases h : y = c
    · subst h
      rw [show (y :: rest) ++ [y] = y :: (rest ++ [y]) from rfl,
        splitChar_cons_sep, splitChar_cons_sep, ih]
      rfl
    · obtain ⟨q, qs, hs⟩ : ∃ q qs, splitChar c (rest ++ [c]) = q :: qs := by
        cases hq : splitChar c (rest ++ [c]) with
        | nil => exact absurd hq (splitChar_ne_nil c _)
        | cons q qs => exact ⟨q, qs, rfl⟩
      obtain ⟨p, ps, hp⟩ : ∃ p ps, splitChar c rest = p :: ps := by
        cases hq : splitChar c rest with
        | nil => exact absurd hq (splitChar_ne_nil c _)
        | cons p ps => exact ⟨p, ps, rfl⟩
      rw [show (y :: rest) ++ [c] = y :: (rest ++ [c]) from rfl,
        splitChar_cons_ne h hs, splitChar_cons_ne h hp]
      rw [ih, hp] at hs
      injection hs with h1 h2
      subst h1
      simp [← h2]

theorem splitChar_flatten (c : Char) : ∀ (lines : List (List Char)),
    (∀ l ∈ lines, c ∉ l) →
    splitChar c ((lines.map (fun l => l ++ [c])).flatten) = lines ++ [[]] := by
  intro lines
  induction lines with
  | nil => intro _; rfl
  | cons l rest ih =>
    intro h
    simp only [List.map_cons, List.flatten_cons]
    rw [show l ++ [c] ++ ((rest.map (fun l => l ++ [c])).flatten)
      = l ++ c :: ((rest.map (fun l => l ++ [c])).flatten) from by simp]
    rw [splitChar_append_sep _ (h l (by simp))]
    rw [ih (fun x hx => h x (by simp [hx]))]
    rfl

theorem splitFirst_none {c : Char} {l : List Char} (h : c ∉ l) :
    splitFirst c l = none := by
  induction l with
  | nil => rfl
  | cons x rest ih =>
    have hx : ¬ x = c := fun he => h (by simp [he])
    unfold splitFirst
    rw [if_neg hx, ih (fun hm => h (by simp [hm]))]
    rfl

theorem splitFirst_append {c : Char} {a : List Char} (b : List Char)
    (h : c ∉ a) : splitFirst c (a ++ c :: b) = some (a, b) := by
  induction a with
  | nil =>
    show splitFirst c (c :: b) = some ([], b)
    unfold splitFirst
    rw [if_pos rfl]
  | cons x a' ih =>
    have hx : ¬ x = c := fun he => h (by simp [he])
    show splitFirst c (x :: (a' ++ c :: b)) = some (x :: a', b)
    unfold splitFirst
    rw [if_neg hx, ih (fun hm => h (by simp [hm]))]
    rfl

theorem splitFirst_shape {c : Char} : ∀ {l a b : List Char},
    splitFirst c l = some (a, b) → c ∉ a ∧ l = a ++ c :: b := by
  intro l
  induction l with
  | nil => intro a b h; exact absurd h (by simp [splitFirst])
  | cons x rest ih =>
    intro a b h
    unfold splitFirst at h
    by_cases hx : x = c
    · rw [if_pos hx] at h
      injection h with h
      rw [Prod.mk.injEq] at h
      obtain ⟨ha, hb⟩ := h
      subst ha
      subst hb
      subst hx
      simp
    · rw [if_neg hx] at h
      cases hs : splitFirst c rest with
      | none => rw [hs] at h; exact Option.noConfusion h
      | some p =>
        obtain ⟨p1, p2⟩ := p
        rw [hs] at h
        simp only [Option.map_some'] at h
        injection h with h
        rw [Prod.mk.injEq] at h
        obtain ⟨ha, hb⟩ := h
        subst ha
        subst hb
        obtain ⟨h1, h2⟩ := ih hs
        refine ⟨?_, by simp [h2]⟩
        intro hm
        rcases List.mem_cons.mp hm with hm | hm
        · exact hx hm.symm
        · exact h1 hm

theorem splitChar_append_left {c : Char} {s X : List Char} {q : List Char}
    {qs : List (List Char)} (hs : c ∉ s) (h : splitChar c X = q :: qs) :
    splitChar c (s ++ X) = (s ++ q) :: qs := by
  induction s with
  | nil => simpa using h
  | cons y s' ih =>
    have hy : ¬ y = c := fun he => hs (by simp [he])
    have hs' : c ∉ s' := fun hm => hs (by simp [hm])
    rw [show (y :: s') ++ X = y :: (s' ++ X) from rfl,
      splitChar_cons_ne hy (ih hs')]
    rfl

theorem joinSep_split {c : Char} {s : List Char} (hs : c ∉ s) :
    ∀ (rest : List (List Char)) (p1 : List Char),
    c ∉ p1 → (∀ p ∈ rest, c ∉ p) →
    splitChar c (joinSep (c :: s) (p1 :: rest))
      = p1 :: rest.map (fun a => s ++ a) := by
  intro rest
  induction rest with
  | nil =>
    intro p1 h1 _
    exact splitChar_no_sep h1
  | cons p2 rest' ih =>
    intro p1 h1 h2
    show splitChar c (p1 ++ (c :: s) ++ joinSep (c :: s) (p2 :: rest'))
      = p1 :: (p2 :: rest').map (fun a => s ++ a)
    rw [show p1 ++ (c :: s) ++ joinSep (c :: s) (p2 :: rest')
      = p1 ++ c :: (s ++ joinSep (c :: s) (p2 :: rest')) from by simp]
    rw [splitChar_append_sep _ h1]
    have hrec := ih p2 (h2 p2 (by simp)) (fun p hp => h2 p (by simp [hp]))
    rw [splitChar_append_left hs hrec]
    rfl

/-! ## Round-trip machinery: the `eqRx` normalisation -/

theorem eqRxAux_succ_cons (fuel : Nat) (c : Char) (rest : List Char) :
    eqRxAux (fuel + 1) (c :: rest)
      = if c = '=' then '=' :: eqRxAux fuel (rest.dropWhile wsB)
        else if wsB c then
          match rest.dropWhile wsB with
          | a :: r2 =>
            if a = '=' then '=' :: eqRxAux fuel (r2.dropWhile wsB)
            else (c :: rest.takeWhile wsB) ++ eqRxAux fuel (rest.dropWhile wsB)
          | [] => (c :: rest.takeWhile wsB) ++ eqRxAux fuel (rest.dropWhile wsB)
        else c :: eqRxAux fuel rest := rfl

theorem eqRxAux_nil (fuel : Nat) : eqRxAux fuel [] = [] := by
  cases fuel <;> rfl

theorem eqRxAux_ne_nil (fuel : Nat) (c : Char) (rest : List Char) :
    eqRxAux fuel (c :: rest) ≠ [] := by
  cases fuel with
  | zero => simp [eqRxAux]
  | succ f =>
    rw [eqRxAux_succ_cons]
    by_cases h1 : c = '='
    · simp [h1]
    · rw [if_neg h1]
      by_cases h2 : wsB c
      · rw [if_pos h2]
        cases hdw : rest.dropWhile wsB with
        | nil => simp
        | cons a r2 =>
          by_cases h3 : a = '='
          · simp [h3]
          · simp [h3]
      · rw [if_neg h2]
        simp

theorem eqRxAux_subset : ∀ (fuel : Nat) (l : List Char) (x : Char),
    x ∈ eqRxAux fuel l → x ∈ l := by
  intro fuel
  induction fuel with
  | zero => intro l x h; exact h
  | succ f ih =>
    intro l x h
    cases l with
    | nil => rw [eqRxAux_nil] at h; exact h
    | cons c rest =>
      rw [eqRxAux_succ_cons] at h
      have hsub : ∀ y, y ∈ rest.dropWhile wsB → y ∈ rest := fun y hy =>
        (List.dropWhile_suffix wsB).subset hy
      by_cases h1 : c = '='
      · rw [if_pos h1] at h
        rcases List.mem_cons.mp h with h2 | h2
        · simp [h2, h1]
        · exact List.mem_cons_of_mem c (hsub x (ih _ x h2))
      · rw [if_neg h1] at h
        by_cases h2 : wsB c
        · rw [if_pos h2] at h
          cases hdw : rest.dropWhile wsB with
          | nil =>
            rw [hdw] at h
            replace h : x ∈ (c :: rest.takeWhile wsB) ++ eqRxAux f [] := h
            rw [eqRxAux_nil] at h
            rcases List.mem_append.mp h with h3 | h3
            · rcases List.mem_cons.mp h3 with h4 | h4
              · simp [h4]
              · exact List.mem_cons_of_mem c
                  ((List.takeWhile_prefix wsB).subset h4)
            · exact absurd h3 (List.not_mem_nil x)
          | cons a r2 =>
            rw [hdw] at h
            replace h : x ∈ (if a = '=' then '=' :: eqRxAux f (r2.dropWhile wsB)
              else (c :: rest.takeWhile wsB) ++ eqRxAux f (a :: r2)) := h
            by_cases h3 : a = '='
            · rw [if_pos h3] at h
              rcases List.mem_cons.mp h with h4 | h4
              · subst h3
                rw [h4]
                exact List.mem_cons_of_mem c (hsub '=' (by rw [hdw]; simp))
              · have h5 : x ∈ r2 := (List.dropWhile_suffix wsB).subset
                  (ih _ x h4)
                have h6 : x ∈ rest.dropWhile wsB := by rw [hdw]; simp [h5]
                exact List.mem_cons_of_mem c (hsub x h6)
            · rw [if_neg h3] at h
              rcases List.mem_append.mp h with h4 | h4
              · rcases List.mem_cons.mp h4 with h5 | h5
                · simp [h5]
                · exact List.mem_cons_of_mem c
                    ((List.takeWhile_prefix wsB).subset h5)
              · have h5 : x ∈ rest.dropWhile wsB := by
                  rw [hdw]; exact ih _ x h4
                exact List.mem_cons_of_mem c (hsub x h5)
        · rw [if_neg h2] at h
          rcases List.mem_cons.mp h with h3 | h3
          · simp [h3]
          · exact List.mem_cons_of_mem c (ih rest x h3)

theorem eqRxAux_head_ne (fuel : Nat) (a : Char) (r : List Char)
    (h1 : wsB a = false) (h2 : ¬ a = '=') :
    ∃ t, eqRxAux fuel (a :: r) = a :: t := by
  cases fuel with
  | zero => exact ⟨r, rfl⟩
  | succ f =>
    rw [eqRxAux_succ_cons, if_neg h2, if_neg (by simp [h1])]
    exact ⟨eqRxAux f r, rfl⟩

theorem eqRxAux_head_eq (fuel : Nat) (r : List Char) :
    ∃ t, eqRxAux fuel ('=' :: r) = '=' :: t := by
  cases fuel with
  | zero => exact ⟨r, rfl⟩
  | succ f =>
    rw [eqRxAux_succ_cons, if_pos rfl]
    exact ⟨eqRxAux f (r.dropWhile wsB), rfl⟩

theorem headNotWs_eqRxAux (fuel : Nat) (l : List Char)
    (h : headNotWs l = true) : headNotWs (eqRxAux fuel l) = true := by
  cases l with
  | nil => rw [eqRxAux_nil]; rfl
  | cons c rest =>
    simp only [headNotWs, Bool.not_eq_true'] at h
    by_cases h2 : c = '='
    · subst h2
      obtain ⟨t, ht⟩ := eqRxAux_head_eq fuel rest
      rw [ht]
      rfl
    · obtain ⟨t, ht⟩ := eqRxAux_head_ne fuel c rest h h2
      rw [ht]
      simp [headNotWs, h]

theorem lastNotWs_cons {rest : List Char} (c : Char) (h : rest ≠ []) :
    lastNotWs (c :: rest) = lastNotWs rest := by
  unfold lastNotWs
  rw [List.reverse_cons]
  exact headNotWs_append_left [c] (by simpa using h)

theorem lastNotWs_false_allws {l : List Char} (h : l ≠ [])
    (hall : ∀ x ∈ l, wsB x = true) : lastNotWs l = false := by
  unfold lastNotWs
  cases hr : l.reverse with
  | nil => exact absurd (by simpa using hr) h
  | cons y t =>
    have hy : y ∈ l := by
      rw [← List.mem_reverse, hr]
      simp
    simp [headNotWs, hall y hy]

theorem allws_of_dropWhile_nil {l : List Char}
    (h : l.dropWhile wsB = []) : ∀ x ∈ l, wsB x = true := by
  intro x hx
  have := List.dropWhile_eq_nil_iff.mp h
  simpa using this x hx

theorem lastNotWs_eqRxAux : ∀ (fuel : Nat) (l : List Char),
    lastNotWs l = true → lastNotWs (eqRxAux fuel l) = true := by
  intro fuel
  induction fuel with
  | zero => intro l h; exact h
  | succ f ih =>
    intro l h
    cases l with
    | nil => rw [eqRxAux_nil]; rfl
    | cons c rest =>
      rw [eqRxAux_succ_cons]
      -- facts about the tail
      by_cases hrest : rest = []
      · -- single-character input
        subst hrest
        have hc : wsB c = false := by
          simpa [lastNotWs, headNotWs] using h
        by_cases h1 : c = '='
        · rw [if_pos h1]
          simp only [List.dropWhile_nil, eqRxAux_nil]
          subst h1
          rfl
        · rw [if_neg h1, if_neg (by simp [hc])]
          simp only [eqRxAux_nil]
          simpa [lastNotWs, headNotWs] using hc
      · have hlrest : lastNotWs rest = true := by
          rw [lastNotWs_cons c hrest] at h
          exact h
        have hsufA : lastNotWs (rest.dropWhile wsB) = true :=
          lastNotWs_of_suffix (List.dropWhile_suffix wsB) hlrest
        by_cases h1 : c = '='
        · rw [if_pos h1]
          cases hdw : rest.dropWhile wsB with
          | nil =>
            exact absurd (lastNotWs_false_allws hrest
              (allws_of_dropWhile_nil hdw)) (by simp [hlrest])
          | cons a r2 =>
            have hne := eqRxAux_ne_nil f a r2
            rw [← hdw] at hne ⊢
            rw [lastNotWs_cons '=' hne]
            exact ih _ hsufA
        · rw [if_neg h1]
          by_cases h2 : wsB c
          · rw [if_pos h2]
            cases hdw : rest.dropWhile wsB with
            | nil =>
              exact absurd (lastNotWs_false_allws hrest
                (allws_of_dropWhile_nil hdw)) (by simp [hlrest])
            | cons a r2 =>
              show lastNotWs (if a = '=' then
                  '=' :: eqRxAux f (r2.dropWhile wsB)
                else (c :: rest.takeWhile wsB) ++ eqRxAux f (a :: r2)) = true
              have hA : lastNotWs (a :: r2) = true := by rw [← hdw]; exact hsufA
              by_cases h3 : a = '='
              · rw [if_pos h3]
                by_cases hr2 : r2 = []
                · subst hr2
                  subst h3
                  simp only [List.dropWhile_nil, eqRxAux_nil]
                  rfl
                · have hlr2 : lastNotWs r2 = true := by
                    rw [lastNotWs_cons a hr2] at hA
                    exact hA
                  have hsufB : lastNotWs (r2.dropWhile wsB) = true :=
                    lastNotWs_of_suffix (List.dropWhile_suffix wsB) hlr2
                  cases hdw2 : r2.dropWhile wsB with
                  | nil =>
                    exact absurd (lastNotWs_false_allws hr2
                      (allws_of_dropWhile_nil hdw2)) (by simp [hlr2])
                  | cons b r3 =>
                    have hne := eqRxAux_ne_nil f b r3
                    rw [← hdw2] at hne ⊢
                    rw [lastNotWs_cons '=' hne]
                    exact ih _ hsufB
              · rw [if_neg h3]
                rw [← hdw]
                have hne := eqRxAux_ne_nil f a r2
                rw [← hdw] at hne
                rw [show (c :: rest.takeWhile wsB)
                    ++ eqRxAux f (rest.dropWhile wsB)
                  = c :: (rest.takeWhile wsB
                    ++ eqRxAux f (rest.dropWhile wsB)) from rfl]
                rw [lastNotWs_cons c (by simp [hne]),
                  lastNotWs_append hne]
                exact ih _ hsufA
          · rw [if_neg h2]
            have hne : eqRxAux f rest ≠ [] := by
              cases hr : rest with
              | nil => exact absurd hr hrest
              | cons y t => exact eqRxAux_ne_nil f y t
            rw [lastNotWs_cons c hne]
            exact ih rest hlrest

theorem mem_of_getLast?_some {l : List Char} {a : Char}
    (h : l.getLast? = some a) : a ∈ l := by
  have hm : a ∈ l.getLast? := by rw [h]; rfl
  obtain ⟨hne, he⟩ := List.mem_getLast?_eq_getLast hm
  rw [he]
  exact List.getLast_mem hne

theorem normB_tail {x : Char} {xs : List Char} (h : normB (x :: xs) = true) :
    normB xs = true := by
  cases xs with
  | nil => rfl
  | cons y ys =>
    simp only [normB, Bool.and_eq_true] at h
    exact h.2

theorem normB_pair {a b : Char} {r : List Char}
    (h : normB (a :: b :: r) = true) :
    (!(wsB a && b = '=') && !(a = '=' && wsB b)) = true := by
  simp only [normB, Bool.and_eq_true] at h
  simp [h.1.1, h.1.2]

theorem normB_cons_of {c : Char} {xs : List Char} (h : normB xs = true)
    (hp : ∀ b r, xs = b :: r →
      (!(wsB c && b = '=') && !(c = '=' && wsB b)) = true) :
    normB (c :: xs) = true := by
  cases xs with
  | nil => rfl
  | cons b r =>
    have hpair := hp b r rfl
    simp only [Bool.and_eq_true] at hpair
    simp only [normB, Bool.and_eq_true]
    exact ⟨⟨hpair.1, hpair.2⟩, h⟩

theorem normB_append : ∀ (x : List Char) (y : List Char),
    normB x = true → normB y = true →
    (∀ a b, x.getLast? = some a → y.head? = some b →
      (!(wsB a && b = '=') && !(a = '=' && wsB b)) = true) →
    normB (x ++ y) = true := by
  intro x
  induction x with
  | nil => intro y _ hy _; exact hy
  | cons a x' ih =>
    intro y hx hy hj
    cases x' with
    | nil =>
      apply normB_cons_of hy
      intro b r hbr
      exact hj a b rfl (by rw [hbr]; rfl)
    | cons a2 x'' =>
      have hrec : normB ((a2 :: x'') ++ y) = true := by
        apply ih y (normB_tail hx) hy
        intro p q hp hq
        refine hj p q ?_ hq
        rw [← hp]
        exact List.getLast?_cons_cons
      apply normB_cons_of hrec
      intro b r hbr
      have hb : b = a2 := by
        have h2 : a2 :: (x'' ++ y) = b :: r := by simpa using hbr
        injection h2 with h3 h4
        exact h3.symm
      subst hb
      exact normB_pair hx

theorem wsB_ne_eq_char {a : Char} (h : wsB a = true) : a ≠ '=' := by
  intro he
  subst he
  exact absurd h (by decide)

theorem normB_allws {l : List Char} (h : ∀ x ∈ l, wsB x = true) :
    normB l = true := by
  induction l with
  | nil => rfl
  | cons a rest ih =>
    apply normB_cons_of (ih (fun x hx => h x (by simp [hx])))
    intro b r hbr
    have ha : wsB a = true := h a (by simp)
    have hb : wsB b = true := h b (by rw [hbr]; simp)
    simp [wsB_ne_eq_char hb, wsB_ne_eq_char ha]

theorem normB_ws_dropWhile : ∀ (rest : List Char) (c : Char),
    wsB c = true → normB (c :: rest) = true →
    ∀ a r2, rest.dropWhile wsB = a :: r2 → ¬ a = '=' := by
  intro rest
  induction rest with
  | nil =>
    intro c _ _ a r2 h
    exact absurd h (by simp)
  | cons b r ih =>
    intro c hc hn a r2 h
    by_cases hb : wsB b = true
    · rw [List.dropWhile_cons_of_pos hb] at h
      exact ih b hb (normB_tail hn) a r2 h
    · rw [List.dropWhile_cons_of_neg hb] at h
      injection h with h1 h2
      subst h1
      have hp := normB_pair hn
      simp only [Bool.and_eq_true, Bool.not_eq_true', Bool.and_eq_false_iff] at hp
      rcases hp.1 with h3 | h3
      · rw [hc] at h3; exact absurd h3 (by simp)
      · simp only [decide_eq_false_iff_not] at h3
        exact h3

theorem normB_dropWhile {l : List Char} (h : normB l = true) :
    normB (l.dropWhile wsB) = true := by
  induction l with
  | nil => exact h
  | cons c rest ih =>
    by_cases hc : wsB c = true
    · rw [List.dropWhile_cons_of_pos hc]
      exact ih (normB_tail h)
    · rw [List.dropWhile_cons_of_neg hc]
      exact h

theorem normB_eqRxAux : ∀ (fuel : Nat) (l : List Char), l.length ≤ fuel →
    normB (eqRxAux fuel l) = true := by
  intro fuel
  induction fuel with
  | zero =>
    intro l h
    rw [Nat.le_zero, List.length_eq_zero] at h
    subst h
    rfl
  | succ f ih =>
    intro l hlen0
    cases l with
    | nil => rw [eqRxAux_nil]; rfl
    | cons c rest =>
      have hlen : rest.length ≤ f := by
        simp only [List.length_cons] at hlen0
        omega
      have hlenA : (rest.dropWhile wsB).length ≤ f :=
        le_trans (List.dropWhile_suffix wsB).length_le hlen
      rw [eqRxAux_succ_cons]
      by_cases h1 : c = '='
      · rw [if_pos h1]
        apply normB_cons_of (ih _ hlenA)
        intro b r hbr
        have hh : headNotWs (eqRxAux f (rest.dropWhile wsB)) = true :=
          headNotWs_eqRxAux f _ (headNotWs_dropWhile rest)
        rw [hbr] at hh
        simp only [headNotWs, Bool.not_eq_true'] at hh
        simp [hh, show wsB '=' = false from by decide]
      · rw [if_neg h1]
        by_cases h2 : wsB c = true
        · rw [if_pos h2]
          cases hdw : rest.dropWhile wsB with
          | nil =>
            show normB ((c :: rest.takeWhile wsB) ++ eqRxAux f []) = true
            rw [eqRxAux_nil, List.append_nil]
            apply normB_allws
            intro x hx
            rcases List.mem_cons.mp hx with h3 | h3
            · rw [h3]; exact h2
            · exact List.mem_takeWhile_imp h3
          | cons a r2 =>
            show normB (if a = '=' then '=' :: eqRxAux f (r2.dropWhile wsB)
              else (c :: rest.takeWhile wsB) ++ eqRxAux f (a :: r2)) = true
            have hlen2 : (a :: r2).length ≤ rest.length := by
              rw [← hdw]
              exact (List.dropWhile_suffix wsB).length_le
            by_cases h3 : a = '='
            · rw [if_pos h3]
              have hlenB : (r2.dropWhile wsB).length ≤ f := by
                have := (List.dropWhile_suffix wsB (l := r2)).length_le
                simp only [List.length_cons] at hlen2
                omega
              apply normB_cons_of (ih _ hlenB)
              intro b r hbr
              have hh : headNotWs (eqRxAux f (r2.dropWhile wsB)) = true :=
                headNotWs_eqRxAux f _ (headNotWs_dropWhile r2)
              rw [hbr] at hh
              simp only [headNotWs, Bool.not_eq_true'] at hh
              simp [hh, show wsB '=' = false from by decide]
            · rw [if_neg h3]
              have hha : wsB a = false := by
                have := headNotWs_dropWhile rest
                rw [hdw] at this
                simpa [headNotWs] using this
              have hlen3 : (a :: r2).length ≤ f := le_trans hlen2 hlen
              apply normB_append
              · apply normB_allws
                intro x hx
                rcases List.mem_cons.mp hx with h4 | h4
                · rw [h4]; exact h2
                · exact List.mem_takeWhile_imp h4
              · exact ih _ hlen3
              · intro p q hp hq
                have hpw : wsB p = true := by
                  have hpm := mem_of_getLast?_some hp
                  rcases List.mem_cons.mp hpm with h4 | h4
                  · rw [h4]; exact h2
                  · exact List.mem_takeWhile_imp h4
                obtain ⟨t, ht⟩ := eqRxAux_head_ne f a r2 hha h3
                rw [ht] at hq
                injection hq with hq
                subst hq
                simp [wsB_ne_eq_char hpw, h3, hpw]
        · rw [if_neg h2]
          apply normB_cons_of (ih rest hlen)
          intro b r hbr
          simp only [Bool.not_eq_true] at h2
          simp [h2, h1]

theorem eqRxAux_eq_self : ∀ (fuel : Nat) (l : List Char), l.length ≤ fuel →
    normB l = true → eqRxAux fuel l = l := by
  intro fuel
  induction fuel with
  | zero => intro l _ _; rfl
  | succ f ih =>
    intro l hlen0 hn
    cases l with
    | nil => exact eqRxAux_nil (f + 1)
    | cons c rest =>
      have hlen : rest.length ≤ f := by
        simp only [List.length_cons] at hlen0
        omega
      rw [eqRxAux_succ_cons]
      by_cases h1 : c = '='
      · rw [if_pos h1]
        subst h1
        have hdrop : rest.dropWhile wsB = rest := by
          cases rest with
          | nil => rfl
          | cons b r =>
            have hp := normB_pair hn
            simp only [Bool.and_eq_true, Bool.not_eq_true',
              Bool.and_eq_false_iff] at hp
            rcases hp.2 with h3 | h3
            · simp at h3
            · exact List.dropWhile_cons_of_neg (by simp [h3])
        rw [hdrop, ih rest hlen (normB_tail hn)]
      · rw [if_neg h1]
        by_cases h2 : wsB c = true
        · rw [if_pos h2]
          cases hdw : rest.dropWhile wsB with
          | nil =>
            show (c :: rest.takeWhile wsB) ++ eqRxAux f [] = c :: rest
            rw [eqRxAux_nil, List.append_nil]
            congr 1
            have := List.takeWhile_append_dropWhile (p := wsB) (l := rest)
            rw [hdw, List.append_nil] at this
            exact this
          | cons a r2 =>
            show (if a = '=' then '=' :: eqRxAux f (r2.dropWhile wsB)
              else (c :: rest.takeWhile wsB) ++ eqRxAux f (a :: r2)) = c :: rest
            have ha := normB_ws_dropWhile rest c h2 hn a r2 hdw
            rw [if_neg ha, ← hdw]
            rw [ih (rest.dropWhile wsB)
              (le_trans (List.dropWhile_suffix wsB).length_le hlen)
              (normB_dropWhile (normB_tail hn))]
            rw [show (c :: rest.takeWhile wsB) ++ rest.dropWhile wsB
              = c :: (rest.takeWhile wsB ++ rest.dropWhile wsB) from rfl,
              List.takeWhile_append_dropWhile]
        · rw [if_neg h2]
          rw [ih rest hlen (normB_tail hn)]

theorem normB_eqRx (l : List Char) : normB (eqRx l) = true :=
  normB_eqRxAux l.length l le_rfl

theorem eqRx_eq_self {l : List Char} (h : normB l = true) : eqRx l = l :=
  eqRxAux_eq_self l.length l le_rfl h

theorem eqRx_idem (l : List Char) : eqRx (eqRx l) = eqRx l :=
  eqRx_eq_self (normB_eqRx l)

theorem headNotWs_eqRx (l : List Char) (h : headNotWs l = true) :
    headNotWs (eqRx l) = true := headNotWs_eqRxAux l.length l h

theorem lastNotWs_eqRx (l : List Char) (h : lastNotWs l = true) :
    lastNotWs (eqRx l) = true := lastNotWs_eqRxAux l.length l h

theorem eqRx_subset {l : List Char} {x : Char} (h : x ∈ eqRx l) : x ∈ l :=
  eqRxAux_subset l.length l x h

/-! ## Round-trip machinery: joining attributes and rendered lines -/

theorem joinSep_nil (sep : List Char) : joinSep sep [] = [] := rfl

theorem joinSep_single (sep x : List Char) : joinSep sep [x] = x := rfl

theorem joinSep_cons2 (sep x y : List Char) (rest : List (List Char)) :
    joinSep sep (x :: y :: rest) = x ++ sep ++ joinSep sep (y :: rest) := rfl

theorem render_eq (sl : sfdiskLine) :
    sl.render = sl.dev ++ ' ' :: ':' :: ' ' :: joinSep (',' :: [' ']) sl.attr := by
  show sl.dev ++ [' ', ':', ' '] ++ joinSep [',', ' '] sl.attr = _
  simp

theorem trimR_eq_nil_allws {l : List Char} (h : trimR l = []) :
    ∀ x ∈ l, wsB x = true := by
  intro x hx
  have h2 : l.reverse.dropWhile wsB = [] := by
    unfold trimR at h
    simpa using h
  exact allws_of_dropWhile_nil h2 x (by simpa using hx)

theorem headNotWs_prefix {x l : List Char} (hp : x <+: l)
    (h : headNotWs l = true) : headNotWs x = true := by
  cases x with
  | nil => rfl
  | cons c t =>
    obtain ⟨r, hr⟩ := hp
    rw [← hr] at h
    simpa [headNotWs] using h

theorem prefix_trimR (l : List Char) : trimR l <+: l := by
  have hsuf : l.reverse.dropWhile wsB <:+ l.reverse := List.dropWhile_suffix wsB
  have := List.reverse_prefix.mpr hsuf
  simpa using this

theorem headNotWs_trimR {l : List Char} (h : headNotWs l = true) :
    headNotWs (trimR l) = true := headNotWs_prefix (prefix_trimR l) h

theorem trimR_cons_of_ne {l : List Char} (c : Char) (h : trimR l ≠ []) :
    trimR (c :: l) = c :: trimR l := by
  rw [show c :: l = [c] ++ l from rfl, trimR_append, if_neg h]
  rfl

theorem mem_joinSep {sep : List Char} {x : Char} :
    ∀ {l : List (List Char)}, x ∈ joinSep sep l →
    x ∈ sep ∨ ∃ a ∈ l, x ∈ a := by
  intro l
  induction l with
  | nil => intro h; exact absurd h (by simp [joinSep])
  | cons a rest ih =>
    intro h
    cases rest with
    | nil =>
      rw [joinSep_single] at h
      exact Or.inr ⟨a, by simp, h⟩
    | cons b rest' =>
      rw [joinSep_cons2] at h
      rcases List.mem_append.mp h with h1 | h1
      · rcases List.mem_append.mp h1 with h2 | h2
        · exact Or.inr ⟨a, by simp, h2⟩
        · exact Or.inl h2
      · rcases ih h1 with h2 | ⟨a2, ha2, hx2⟩
        · exact Or.inl h2
        · exact Or.inr ⟨a2, by simp [ha2], hx2⟩

theorem headNotWs_joinSep {c : Char} {s : List Char} (hc : wsB c = false) :
    ∀ {l : List (List Char)}, (∀ a ∈ l, headNotWs a = true) →
    headNotWs (joinSep (c :: s) l) = true := by
  intro l
  cases l with
  | nil => intro _; rfl
  | cons a rest =>
    intro h
    cases rest with
    | nil => exact h a (by simp)
    | cons b rest' =>
      rw [joinSep_cons2]
      cases a with
      | nil => simp [headNotWs, hc]
      | cons c0 t0 =>
        rw [show ((c0 :: t0) ++ (c :: s)) ++ joinSep (c :: s) (b :: rest')
          = c0 :: (t0 ++ (c :: s) ++ joinSep (c :: s) (b :: rest')) from by simp]
        have := h (c0 :: t0) (by simp)
        simpa [headNotWs] using this

theorem mem_splitChar_subset {c : Char} {x : Char} :
    ∀ {l : List Char} {p : List Char}, p ∈ splitChar c l → x ∈ p → x ∈ l := by
  intro l
  induction l with
  | nil =>
    intro p hp hx
    simp [splitChar] at hp
    subst hp
    exact absurd hx (by simp)
  | cons a rest ih =>
    intro p hp hx
    by_cases h : a = c
    · subst h
      rw [splitChar_cons_sep] at hp
      rcases List.mem_cons.mp hp with h1 | h1
      · subst h1; exact absurd hx (by simp)
      · exact List.mem_cons_of_mem a (ih h1 hx)
    · obtain ⟨q, qs, hs⟩ : ∃ q qs, splitChar c rest = q :: qs := by
        cases hq : splitChar c rest with
        | nil => exact absurd hq (splitChar_ne_nil c rest)
        | cons q qs => exact ⟨q, qs, rfl⟩
      rw [splitChar_cons_ne h hs] at hp
      rcases List.mem_cons.mp hp with h1 | h1
      · subst h1
        rcases List.mem_cons.mp hx with h2 | h2
        · simp [h2]
        · exact List.mem_cons_of_mem a (ih (by rw [hs]; simp) h2)
      · exact List.mem_cons_of_mem a (ih (by rw [hs]; simp [h1]) hx)

theorem joinSep_roundtrip :
    ∀ (attrs : List (List Char)), attrs ≠ [] →
    (∀ a ∈ attrs, headNotWs a = true ∧ lastNotWs a = true ∧
      normB a = true ∧ (',') ∉ a) →
    (splitChar ',' (trimR (joinSep (',' :: [' ']) attrs))).map
      (fun x => eqRx (trimSpace x)) = attrs := by
  intro attrs
  induction attrs with
  | nil => intro h; exact absurd rfl h
  | cons a rest ih =>
    intro _ hgood
    obtain ⟨ha1, ha2, ha3, ha4⟩ := hgood a (by simp)
    cases rest with
    | nil =>
      rw [joinSep_single, trimR_eq_self ha2, splitChar_no_sep ha4]
      simp only [List.map_cons, List.map_nil]
      rw [trimSpace_eq_self ha1 ha2, eqRx_eq_self ha3]
    | cons b rest' =>
      have hIH := ih (by simp) (fun x hx => hgood x (by simp [hx]))
      by_cases hK : trimR (joinSep (',' :: [' ']) (b :: rest')) = []
      · have hallws := trimR_eq_nil_allws hK
        cases rest' with
        | cons c2 r2 =>
          exfalso
          have hmem : (',') ∈ joinSep (',' :: [' ']) (b :: c2 :: r2) := by
            rw [joinSep_cons2]
            simp
          have := hallws ',' hmem
          exact absurd this (by decide)
        | nil =>
          have hb : b = [] := by
            cases hbe : b with
            | nil => rfl
            | cons c0 t0 =>
              exfalso
              have hmem : c0 ∈ joinSep (',' :: [' ']) [b] := by
                rw [joinSep_single, hbe]; simp
              have hw := hallws c0 hmem
              have hh := (hgood b (by simp)).1
              rw [hbe] at hh
              simp [headNotWs, hw] at hh
          subst hb
          rw [joinSep_cons2, joinSep_single]
          rw [show (a ++ (',' :: [' '])) ++ ([] : List Char)
            = (a ++ [',']) ++ [' '] from by simp]
          rw [trimR_append]
          rw [if_pos (show trimR [' '] = [] from by decide)]
          rw [trimR_append, if_neg (show ¬ trimR [','] = [] from by decide)]
          rw [show trimR [','] = [','] from by decide]
          rw [splitChar_append_last, splitChar_no_sep ha4]
          simp only [List.map_append, List.map_cons, List.map_nil]
          rw [trimSpace_eq_self ha1 ha2, eqRx_eq_self ha3]
          rfl
      · rw [joinSep_cons2]
        rw [show (a ++ (',' :: [' '])) ++ joinSep (',' :: [' ']) (b :: rest')
          = (a ++ [',']) ++ (' ' :: joinSep (',' :: [' ']) (b :: rest'))
          from by simp]
        rw [trimR_append]
        have h1 : trimR (' ' :: joinSep (',' :: [' ']) (b :: rest'))
            = ' ' :: trimR (joinSep (',' :: [' ']) (b :: rest')) :=
          trimR_cons_of_ne ' ' hK
        rw [h1, if_neg (by simp)]
        obtain ⟨p, ps, hps⟩ : ∃ p ps,
            splitChar ',' (trimR (joinSep (',' :: [' ']) (b :: rest')))
              = p :: ps := by
          cases hq : splitChar ',' (trimR (joinSep (',' :: [' ']) (b :: rest'))) with
          | nil => exact absurd hq (splitChar_ne_nil _ _)
          | cons p ps => exact ⟨p, ps, rfl⟩
        rw [show (a ++ [',']) ++ ' ' :: trimR (joinSep (',' :: [' ']) (b :: rest'))
          = a ++ ',' :: (' ' :: trimR (joinSep (',' :: [' ']) (b :: rest')))
          from by simp]
        rw [splitChar_append_sep _ ha4]
        rw [splitChar_cons_ne (by decide) hps]
        rw [hps] at hIH
        simp only [List.map_cons] at hIH ⊢
        rw [trimSpace_eq_self ha1 ha2, eqRx_eq_self ha3]
        rw [trimSpace_cons_ws p (by decide)]
        rw [hIH]

/-! ## Round-trip machinery: the two parse phases -/

theorem parseMetaPhase_cons (l : List Char) (rest : List (List Char)) :
    parseMetaPhase (l :: rest)
      = if trimSpace l = [] then ([], some rest)
        else (trimSpace l :: (parseMetaPhase rest).1,
          (parseMetaPhase rest).2) := by
  by_cases h : trimSpace l = []
  · rw [if_pos h]
    simp [parseMetaPhase, h]
  · rw [if_neg h]
    simp [parseMetaPhase, h]

theorem parseMetaPhase_meta_mem : ∀ (lines : List (List Char))
    (m : List Char), m ∈ (parseMetaPhase lines).1 →
    ∃ l ∈ lines, m = trimSpace l ∧ m ≠ [] := by
  intro lines
  induction lines with
  | nil => intro m hm; exact absurd hm (by simp [parseMetaPhase])
  | cons l rest ih =>
    intro m hm
    rw [parseMetaPhase_cons] at hm
    by_cases h : trimSpace l = []
    · rw [if_pos h] at hm
      exact absurd hm (by simp)
    · rw [if_neg h] at hm
      rcases List.mem_cons.mp hm with h1 | h1
      · exact ⟨l, by simp, h1, by rw [h1]; exact h⟩
      · obtain ⟨l2, hl2, he, hne⟩ := ih m h1
        exact ⟨l2, by simp [hl2], he, hne⟩

theorem parseMetaPhase_rest_mem : ∀ (lines rest : List (List Char)),
    (parseMetaPhase lines).2 = some rest → ∀ l ∈ rest, l ∈ lines := by
  intro lines
  induction lines with
  | nil =>
    intro rest h
    exact absurd h (by simp [parseMetaPhase])
  | cons l0 tl ih =>
    intro rest h l hl
    rw [parseMetaPhase_cons] at h
    by_cases ht : trimSpace l0 = []
    · rw [if_pos ht] at h
      simp only at h
      injection h with h
      subst h
      exact List.mem_cons_of_mem l0 hl
    · rw [if_neg ht] at h
      simp only at h
      exact List.mem_cons_of_mem l0 (ih rest h l hl)

theorem parseMetaPhase_round : ∀ (meta rest : List (List Char)),
    (∀ m ∈ meta, headNotWs m = true ∧ lastNotWs m = true ∧ m ≠ []) →
    parseMetaPhase (meta ++ [] :: rest) = (meta, some rest) := by
  intro meta
  induction meta with
  | nil =>
    intro rest _
    rw [List.nil_append, parseMetaPhase_cons,
      if_pos (show trimSpace ([] : List Char) = [] from rfl)]
  | cons m ms ih =>
    intro rest h
    obtain ⟨h1, h2, h3⟩ := h m (by simp)
    have ht : trimSpace m = m := trimSpace_eq_self h1 h2
    rw [List.cons_append, parseMetaPhase_cons, if_neg (by rw [ht]; exact h3)]
    rw [ht, ih rest (fun x hx => h x (by simp [hx]))]

theorem parsePartsPhase_cons_blank (pno : Nat) {l : List Char}
    (rest : List (List Char)) (h : trimSpace l = []) :
    parsePartsPhase pno (l :: rest) = parsePartsPhase pno rest := by
  simp [parsePartsPhase, h]

theorem parsePartsPhase_cons_line (pno : Nat) {l : List Char}
    (rest : List (List Char)) {f0 f1 : List Char} (h : trimSpace l ≠ [])
    (hs : splitFirst ':' (trimSpace l) = some (f0, f1)) :
    parsePartsPhase pno (l :: rest)
      = (parsePartsPhase (pno + 1) rest).map (fun tail =>
          { dev := trimSpace f0,
            attr := (splitChar ',' (trimSpace f1)).map
              (fun a => eqRx (trimSpace a)),
            pno := pno + 1 } :: tail) := by
  simp [parsePartsPhase, h, hs]

theorem parsePartsPhase_cons_none (pno : Nat) {l : List Char}
    (rest : List (List Char)) (h : trimSpace l ≠ [])
    (hs : splitFirst ':' (trimSpace l) = none) :
    parsePartsPhase pno (l :: rest) = none := by
  simp [parsePartsPhase, h, hs]

theorem parsePartsPhase_WF : ∀ (lines : List (List Char)) (k : Nat)
    (parts : List sfdiskLine), parsePartsPhase k lines = some parts →
    (∀ l ∈ lines, ('\n') ∉ l) →
    (∀ p ∈ parts, rowWF p) ∧ pnoSeq k parts := by
  intro lines
  induction lines with
  | nil =>
    intro k parts h _
    have h2 : some ([] : List sfdiskLine) = some parts := h
    injection h2 with h2
    subst h2
    exact ⟨by simp, trivial⟩
  | cons l rest ih =>
    intro k parts h hnl
    by_cases ht : trimSpace l = []
    · rw [parsePartsPhase_cons_blank k rest ht] at h
      exact ih k parts h (fun x hx => hnl x (by simp [hx]))
    · cases hs : splitFirst ':' (trimSpace l) with
      | none =>
        rw [parsePartsPhase_cons_none k rest ht hs] at h
        exact Option.noConfusion h
      | some fp =>
        obtain ⟨f0, f1⟩ := fp
        rw [parsePartsPhase_cons_line k rest ht hs] at h
        rw [Option.map_eq_some'] at h
        obtain ⟨tail, htail, hparts⟩ := h
        obtain ⟨hwf, hseq⟩ := ih (k + 1) tail htail
          (fun x hx => hnl x (by simp [hx]))
        obtain ⟨hf0, hshape⟩ := splitFirst_shape hs
        have hmem0 : ∀ x ∈ f0, x ∈ l := by
          intro x hx
          apply mem_of_mem_trimSpace (l := l)
          rw [hshape]
          exact List.mem_append_left _ hx
        have hmem1 : ∀ x ∈ f1, x ∈ l := by
          intro x hx
          apply mem_of_mem_trimSpace (l := l)
          rw [hshape]
          exact List.mem_append_right _ (by simp [hx])
        constructor
        · intro p hp
          rw [← hparts] at hp
          rcases List.mem_cons.mp hp with h1 | h1
          · subst h1
            refine ⟨headNotWs_trimSpace f0, lastNotWs_trimSpace f0,
              ?_, ?_, ?_, ?_⟩
            · intro hc
              exact hf0 (mem_of_mem_trimSpace hc)
            · intro hc
              exact hnl l (by simp) (hmem0 _ (mem_of_mem_trimSpace hc))
            · intro hc
              exact splitChar_ne_nil ',' (trimSpace f1) (by simpa using hc)
            · intro a haa
              rw [List.mem_map] at haa
              obtain ⟨piece, hpiece, hfa⟩ := haa
              subst hfa
              refine ⟨headNotWs_eqRx _ (headNotWs_trimSpace piece),
                lastNotWs_eqRx _ (lastNotWs_trimSpace piece),
                normB_eqRx _, ?_, ?_⟩
              · intro hc
                exact not_mem_splitChar ',' (trimSpace f1) piece hpiece
                  (mem_of_mem_trimSpace (eqRx_subset hc))
              · intro hc
                have h2 : ('\n') ∈ trimSpace f1 :=
                  mem_splitChar_subset hpiece
                    (mem_of_mem_trimSpace (eqRx_subset hc))
                exact hnl l (by simp) (hmem1 _ (mem_of_mem_trimSpace h2))
          · exact hwf p h1
        · rw [← hparts]
          exact ⟨rfl, hseq⟩

theorem renderLine_parse {dev : List Char} {attrs : List (List Char)}
    (hd1 : headNotWs dev = true) (hd2 : lastNotWs dev = true)
    (hd3 : (':') ∉ dev) (hne : attrs ≠ [])
    (hattr : ∀ a ∈ attrs, headNotWs a = true ∧ lastNotWs a = true ∧
      normB a = true ∧ (',') ∉ a) :
    ∃ f0 f1,
      trimSpace (dev ++ ' ' :: ':' :: ' ' :: joinSep (',' :: [' ']) attrs)
        ≠ [] ∧
      splitFirst ':' (trimSpace
        (dev ++ ' ' :: ':' :: ' ' :: joinSep (',' :: [' ']) attrs))
        = some (f0, f1) ∧
      trimSpace f0 = dev ∧
      (splitChar ',' (trimSpace f1)).map (fun a => eqRx (trimSpace a))
        = attrs := by
  by_cases hK : trimR (joinSep (',' :: [' ']) attrs) = []
  · have hA : attrs = [[]] := by
      cases attrs with
      | nil => exact absurd rfl hne
      | cons a rest =>
        cases rest with
        | nil =>
          have hallws := trimR_eq_nil_allws hK
          have ha : a = [] := by
            cases hae : a with
            | nil => rfl
            | cons c0 t0 =>
              exfalso
              have hmem : c0 ∈ joinSep (',' :: [' ']) [a] := by
                rw [joinSep_single, hae]; simp
              have hw := hallws c0 hmem
              have hh := (hattr a (by simp)).1
              rw [hae] at hh
              simp [headNotWs, hw] at hh
          rw [ha]
        | cons b r =>
          exfalso
          have hmem : (',') ∈ joinSep (',' :: [' ']) (a :: b :: r) := by
            rw [joinSep_cons2]; simp
          have := trimR_eq_nil_allws hK ',' hmem
          exact absurd this (by decide)
    subst hA
    rw [joinSep_single]
    cases dev with
    | nil =>
      refine ⟨[], [], by decide, by decide, rfl, by decide⟩
    | cons d0 dt =>
      have hTR : trimR ((d0 :: dt) ++ ' ' :: ':' :: ' ' :: [])
          = (d0 :: dt) ++ [' ', ':'] := by
        rw [show (d0 :: dt) ++ ' ' :: ':' :: ' ' :: []
          = ((d0 :: dt) ++ [' ', ':']) ++ [' '] from by simp]
        rw [trimR_append, if_pos (show trimR [' '] = [] from by decide)]
        rw [trimR_append, if_neg (show ¬ trimR [' ', ':'] = [] from by decide)]
        rw [show trimR [' ', ':'] = [' ', ':'] from by decide]
      have hT : trimSpace ((d0 :: dt) ++ ' ' :: ':' :: ' ' :: [])
          = (d0 :: dt) ++ [' ', ':'] := by
        unfold trimSpace
        rw [hTR]
        exact trimL_eq_self
          (by rw [headNotWs_append_left _ (by simp)]; exact hd1)
      refine ⟨(d0 :: dt) ++ [' '], [], ?_, ?_, ?_, by decide⟩
      · rw [hT]; simp
      · rw [hT, show (d0 :: dt) ++ [' ', ':']
          = ((d0 :: dt) ++ [' ']) ++ ':' :: [] from by simp]
        exact splitFirst_append []
          (by intro hm; rcases List.mem_append.mp hm with h | h
              · exact hd3 h
              · simp at h)
      · unfold trimSpace
        rw [trimR_append, if_pos (show trimR [' '] = [] from by decide),
          trimR_eq_self hd2]
        exact trimL_eq_self hd1
  · have hJh : headNotWs (joinSep (',' :: [' ']) attrs) = true :=
      headNotWs_joinSep (by decide) (fun a ha => (hattr a ha).1)
    have hKh : headNotWs (trimR (joinSep (',' :: [' ']) attrs)) = true :=
      headNotWs_trimR hJh
    have hsplit := joinSep_roundtrip attrs hne hattr
    have hT1 : trimSpace (' ' :: trimR (joinSep (',' :: [' ']) attrs))
        = trimR (joinSep (',' :: [' ']) attrs) := by
      rw [trimSpace_cons_ws _ (by decide)]
      unfold trimSpace
      rw [trimR_idem]
      exact trimL_eq_self hKh
    have hTR : trimR (dev ++ ' ' :: ':' :: ' '
          :: joinSep (',' :: [' ']) attrs)
        = dev ++ ' ' :: ':' :: ' '
          :: trimR (joinSep (',' :: [' ']) attrs) := by
      rw [show dev ++ ' ' :: ':' :: ' ' :: joinSep (',' :: [' ']) attrs
        = (dev ++ [' ', ':']) ++ (' ' :: joinSep (',' :: [' ']) attrs)
        from by simp]
      rw [trimR_append, trimR_cons_of_ne ' ' hK, if_neg (by simp)]
      simp
    cases dev with
    | nil =>
      have hT : trimSpace (([] : List Char) ++ ' ' :: ':' :: ' '
            :: joinSep (',' :: [' ']) attrs)
          = ':' :: ' ' :: trimR (joinSep (',' :: [' ']) attrs) := by
        unfold trimSpace
        rw [hTR, List.nil_append, trimL_cons_ws _ (by decide),
          trimL_cons_not _ (by decide)]
      refine ⟨[], ' ' :: trimR (joinSep (',' :: [' ']) attrs),
        ?_, ?_, rfl, ?_⟩
      · rw [hT]; simp
      · rw [hT]
        exact splitFirst_append _ (List.not_mem_nil ':')
      · rw [hT1]
        exact hsplit
    | cons d0 dt =>
      have hT : trimSpace ((d0 :: dt) ++ ' ' :: ':' :: ' '
            :: joinSep (',' :: [' ']) attrs)
          = (d0 :: dt) ++ ' ' :: ':' :: ' '
            :: trimR (joinSep (',' :: [' ']) attrs) := by
        unfold trimSpace
        rw [hTR]
        exact trimL_eq_self
          (by rw [headNotWs_append_left _ (by simp)]; exact hd1)
      refine ⟨(d0 :: dt) ++ [' '],
        ' ' :: trimR (joinSep (',' :: [' ']) attrs), ?_, ?_, ?_, ?_⟩
      · rw [hT]; simp
      · rw [hT, show (d0 :: dt) ++ ' ' :: ':' :: ' '
            :: trimR (joinSep (',' :: [' ']) attrs)
          = ((d0 :: dt) ++ [' ']) ++ ':'
            :: (' ' :: trimR (joinSep (',' :: [' ']) attrs)) from by simp]
        exact splitFirst_append _
          (by intro hm; rcases List.mem_append.mp hm with h | h
              · exact hd3 h
              · simp at h)
      · unfold trimSpace
        rw [trimR_append, if_pos (show trimR [' '] = [] from by decide),
          trimR_eq_self hd2]
        exact trimL_eq_self hd1
      · rw [hT1]
        exact hsplit

theorem parsePartsPhase_round : ∀ (parts : List sfdiskLine) (k : Nat),
    (∀ p ∈ parts, rowWF p) → pnoSeq k parts →
    parsePartsPhase k (parts.map sfdiskLine.render ++ [[]]) = some parts := by
  intro parts
  induction parts with
  | nil =>
    intro k _ _
    rw [List.map_nil, List.nil_append,
      parsePartsPhase_cons_blank k []
        (show trimSpace ([] : List Char) = [] from rfl)]
    rfl
  | cons p ps ih =>
    intro k hwf hseq
    obtain ⟨hpno, hseq2⟩ := hseq
    obtain ⟨hd1, hd2, hd3, hd4, hne, hattr⟩ := hwf p (by simp)
    obtain ⟨f0, f1, htne, hsf, hf0, hf1⟩ :=
      renderLine_parse hd1 hd2 hd3 hne (fun a ha =>
        ⟨(hattr a ha).1, (hattr a ha).2.1, (hattr a ha).2.2.1,
          (hattr a ha).2.2.2.1⟩)
    rw [← render_eq] at htne hsf
    rw [List.map_cons, List.cons_append,
      parsePartsPhase_cons_line k _ htne hsf,
      ih (k + 1) (fun q hq => hwf q (by simp [hq])) hseq2,
      Option.map_some']
    have hrow : sfdiskLine.mk (trimSpace f0)
        ((splitChar ',' (trimSpace f1)).map (fun a => eqRx (trimSpace a)))
        (k + 1) = p := by
      rw [hf0, hf1, ← hpno]
    rw [hrow]

theorem write_lines (pt : partitionTable)
    (hm : ∀ m ∈ pt.meta, ('\n') ∉ m)
    (hp : ∀ p ∈ pt.parts, ('\n') ∉ p.render) :
    splitChar '\n' pt.Write
      = pt.meta ++ [] :: (pt.parts.map sfdiskLine.render ++ [[]]) := by
  have hno : ∀ l ∈ pt.meta ++ [[]] ++ pt.parts.map sfdiskLine.render,
      ('\n') ∉ l := by
    intro l hl
    rcases List.mem_append.mp hl with h2 | h2
    · rcases List.mem_append.mp h2 with h3 | h3
      · exact hm l h3
      · simp only [List.mem_singleton] at h3
        subst h3
        simp
    · rw [List.mem_map] at h2
      obtain ⟨q, hq, he⟩ := h2
      subst he
      exact hp q hq
  have h1 : pt.Write
      = ((pt.meta ++ [[]] ++ pt.parts.map sfdiskLine.render).map
          (fun l => l ++ ['\n'])).flatten := by
    unfold partitionTable.Write
    simp only [List.map_append, List.flatten_append, List.map_map,
      Function.comp_def]
    simp
  rw [h1, splitChar_flatten '\n' _ hno]
  simp

theorem getPartitionTable_WF {out : List Char} {pt : partitionTable}
    (h : getPartitionTable out = some pt) : tableWF pt := by
  simp only [getPartitionTable] at h
  cases hm : parseMetaPhase (splitChar '\n' out) with
  | mk meta orest =>
    rw [hm] at h
    cases orest with
    | none =>
      replace h : some (partitionTable.mk meta []) = some pt := h
      injection h with h
      subst h
      refine ⟨?_, by simp, trivial⟩
      intro m hmm
      obtain ⟨l, hl, he, hne⟩ := parseMetaPhase_meta_mem _ m
        (by rw [hm]; exact hmm)
      subst he
      exact ⟨headNotWs_trimSpace l, lastNotWs_trimSpace l, hne, fun hc =>
        not_mem_splitChar '\n' out l hl (mem_of_mem_trimSpace hc)⟩
    | some rest =>
      replace h : (parsePartsPhase 0 rest).map
          (fun parts => partitionTable.mk meta parts) = some pt := h
      rw [Option.map_eq_some'] at h
      obtain ⟨parts, hparts, hpt⟩ := h
      subst hpt
      have hrest : ∀ l ∈ rest, l ∈ splitChar '\n' out :=
        parseMetaPhase_rest_mem _ rest (by rw [hm])
      obtain ⟨hwf, hseq⟩ := parsePartsPhase_WF rest 0 parts hparts
        (fun l hl hc => not_mem_splitChar '\n' out l (hrest l hl) hc)
      refine ⟨?_, hwf, hseq⟩
      intro m hmm
      obtain ⟨l, hl, he, hne⟩ := parseMetaPhase_meta_mem _ m
        (by rw [hm]; exact hmm)
      subst he
      exact ⟨headNotWs_trimSpace l, lastNotWs_trimSpace l, hne, fun hc =>
        not_mem_splitChar '\n' out l hl (mem_of_mem_trimSpace hc)⟩

theorem write_parse_WF {pt : partitionTable} (h : tableWF pt) :
    getPartitionTable pt.Write = some pt := by
  obtain ⟨hmeta, hparts, hseq⟩ := h
  have hm : ∀ m ∈ pt.meta, ('\n') ∉ m := fun m hm2 => (hmeta m hm2).2.2.2
  have hp : ∀ p ∈ pt.parts, ('\n') ∉ p.render := by
    intro p hp2 hc
    rw [render_eq] at hc
    rcases List.mem_append.mp hc with h1 | h1
    · exact (hparts p hp2).2.2.2.1 h1
    · rcases List.mem_cons.mp h1 with h2 | h2
      · exact absurd h2 (by decide)
      rcases List.mem_cons.mp h2 with h3 | h3
      · exact absurd h3 (by decide)
      rcases List.mem_cons.mp h3 with h4 | h4
      · exact absurd h4 (by decide)
      rcases mem_joinSep h4 with h5 | ⟨a, ha, hxa⟩
      · exact absurd h5 (by decide)
      · exact ((hparts p hp2).2.2.2.2.2 a ha).2.2.2.2 hxa
  have hparse : parseMetaPhase (splitChar '\n' pt.Write)
      = (pt.meta, some (pt.parts.map sfdiskLine.render ++ [[]])) := by
    rw [write_lines pt hm hp]
    exact parseMetaPhase_round pt.meta _ (fun m hm2 =>
      ⟨(hmeta m hm2).1, (hmeta m hm2).2.1, (hmeta m hm2).2.2.1⟩)
  simp only [getPartitionTable, hparse]
  rw [parsePartsPhase_round pt.parts 0 hparts hseq, Option.map_some']

/-- C4: parsing is a left inverse of serialisation.  Every in-memory
partition table obtainable from `getPartitionTable` (the `sfdisk -d`
output parser) is reproduced exactly — same metadata rows in the same
order, same partition rows with identical device paths, attribute
lists and partition numbers — when the text written by
`partitionTable.Write` is parsed again. -/
theorem C4_parse_write_roundtrip (s : List Char) (t : partitionTable)
    (h : getPartitionTable s = some t) :
    getPartitionTable t.Write = some t :=
  write_parse_WF (getPartitionTable_WF h)

theorem C4_parse_write_roundtrip_witness :
    getPartitionTable (("label: dos\nlabel-id: 0xeba7536a\ndevice: /dev/sda\nunit: sectors\n\n/dev/sda1 : start=        2048, size=      497664, type=83, bootable\n").toList)
      = some wtTableDos ∧
    getPartitionTable wtTableDos.Write = some wtTableDos :=
  ⟨by decide, C4_parse_write_roundtrip
    (("label: dos\nlabel-id: 0xeba7536a\ndevice: /dev/sda\nunit: sectors\n\n/dev/sda1 : start=        2048, size=      497664, type=83, bootable\n").toList)
    wtTableDos (by decide)⟩
